import Mathlib

/-!
# NVS handler: a shallow embedding of `nvs_entry.c`

The record table `NVS_Entry* nvs_entries[MAX_NVS_RAM]` is a list of slots, a slot
being `none` (the NULL pointer) or `some e` (a pointer to an allocated entry).
The C array has `MAX_NVS_RAM` slots; every `for (i = 0; i < MAX_NVS_RAM; i++)`
loop of the source visits the slots in index order and is written as the
recursion over the slot list.

Bytes are natural numbers (a `char`/`uint8_t` is a number below 256); `char`
buffers are lists of bytes.  A `const char *` argument is the list of bytes found
at the pointer: the C string is what stands before the first 0, and the end of
the list counts as the terminator.  `uint32_t` values are natural numbers taken
modulo `2 ^ 32`.  The union `value` is its 64 bytes; `uint_val` is the
little-endian reading of the first four, and the tag `type` takes four bytes,
least significant first.  Padding bytes of `NVS_Entry` are not modelled: they
travel to the file and back, and no code path looks at them.
-/

namespace NVS

/-! ## Constants and types of `nvs_entry.h` -/

def KEY_MAX_LEN : Nat := 32
def VALUE_STR_MAX_LEN : Nat := 64
def NVS_ENTRY_SIZE : Nat := 128
def MAX_NVS_RAM : Nat := 100

/-- Enum `ValueType`, first enumerator. -/
def TYPE_UINT32 : Nat := 0
/-- Enum `ValueType`, second enumerator. -/
def TYPE_STRING : Nat := 1

/-- Struct `Data`: the payload, 4 + 32 + 64 = 100 bytes.  The tag is kept as the
number stored in memory, since a record read from the file may carry any tag. -/
structure Data where
  type : Nat
  key : List Nat
  value : List Nat
deriving DecidableEq

/-- Struct `NVS_Entry`. -/
structure NVS_Entry where
  crc32 : Nat
  deleted : Bool
  modified : Bool
  data : Data
deriving DecidableEq

/-- The global `nvs_entries`. -/
abbrev Table := List (Option NVS_Entry)

/-! ## The C library functions the source calls -/

/-- C `strlen`: number of bytes before the first 0. -/
def strlen (s : List Nat) : Nat := (s.takeWhile (fun b => b != 0)).length

/-- C `strncmp(a, b, n) == 0`: compare at most `n` bytes, stopping after a 0. -/
def strncmp_zero : List Nat → List Nat → Nat → Bool
  | _, _, 0 => true
  | a, b, n + 1 =>
    if a.headD 0 != b.headD 0 then false
    else if a.headD 0 == 0 then true
    else strncmp_zero a.tail b.tail n

/-- C `strncpy(dst, src, n)`: exactly `n` bytes of `dst` are written, the bytes
of `src` before its first 0 (at most `n` of them) followed by 0 bytes. -/
def strncpy (dst src : List Nat) (n : Nat) : List Nat :=
  (src.takeWhile (fun b => b != 0)).take n
    ++ List.replicate (n - ((src.takeWhile (fun b => b != 0)).take n).length) 0
    ++ dst.drop n

/-- The four bytes of a `uint32_t`, least significant first. -/
def u32_bytes (v : Nat) : List Nat :=
  [v % 256, v / 256 % 256, v / 65536 % 256, v / 16777216 % 256]

/-- Reading `value.uint_val`. -/
def get_uint_val (value : List Nat) : Nat :=
  value.getD 0 0 % 256 + 256 * (value.getD 1 0 % 256)
    + 65536 * (value.getD 2 0 % 256) + 16777216 * (value.getD 3 0 % 256)

/-- Writing `value.uint_val = v`: the first four bytes of the union change. -/
def set_uint_val (value : List Nat) (v : Nat) : List Nat :=
  u32_bytes v ++ value.drop 4

/-- What `calloc(1, sizeof(NVS_Entry))` returns: all bytes zero. -/
def calloc_entry : NVS_Entry :=
  { crc32 := 0, deleted := false, modified := false,
    data := { type := 0, key := List.replicate KEY_MAX_LEN 0,
              value := List.replicate VALUE_STR_MAX_LEN 0 } }

/-- The C string held by the first `n` bytes of a buffer. -/
def cstrn (n : Nat) (l : List Nat) : List Nat := (l.take n).takeWhile (fun b => b != 0)

/-! ## `nvs_delete_entry` -/

/-- The loop of `nvs_delete_entry`. -/
def nvs_delete_entry : Table → List Nat → Bool × Table
  | [], _ => (false, [])
  | none :: rest, _ => (false, none :: rest)
  | some e :: rest, key =>
    if strncmp_zero e.data.key key KEY_MAX_LEN then
      (true, some { e with deleted := true } :: rest)
    else
      ((nvs_delete_entry rest key).1, some e :: (nvs_delete_entry rest key).2)

/-! ## `nvs_set_uint32` -/

/-- The entry `nvs_set_uint32` creates in an empty slot. -/
def new_uint32_entry (key : List Nat) (val : Nat) : NVS_Entry :=
  { calloc_entry with
    modified := true
    data := { type := TYPE_UINT32,
              key := strncpy calloc_entry.data.key key (KEY_MAX_LEN - 1),
              value := set_uint_val calloc_entry.data.value val } }

/-- The loop of `nvs_set_uint32`. -/
def nvs_set_uint32_loop (key : List Nat) (val : Nat) : Table → Bool × Table
  | [] => (false, [])
  | none :: rest => (true, some (new_uint32_entry key val) :: rest)
  | some e :: rest =>
    if strncmp_zero e.data.key key KEY_MAX_LEN then
      if e.deleted then (false, some e :: rest)
      else if e.data.type != TYPE_UINT32 then (false, some e :: rest)
      else
        (true, some { e with
                      modified := true
                      data := { e.data with value := set_uint_val e.data.value val } } :: rest)
    else
      ((nvs_set_uint32_loop key val rest).1, some e :: (nvs_set_uint32_loop key val rest).2)

/-- Function `nvs_set_uint32`: the result and the table it leaves. -/
def nvs_set_uint32 (tbl : Table) (key : List Nat) (val : Nat) : Bool × Table :=
  if strlen key ≥ KEY_MAX_LEN then (false, tbl) else nvs_set_uint32_loop key val tbl

/-! ## `nvs_set_string` -/

/-- The entry `nvs_set_string` creates in an empty slot. -/
def new_string_entry (key str_val : List Nat) : NVS_Entry :=
  { calloc_entry with
    modified := true
    data := { type := TYPE_STRING,
              key := strncpy calloc_entry.data.key key (KEY_MAX_LEN - 1),
              value := strncpy calloc_entry.data.value str_val (VALUE_STR_MAX_LEN - 1) } }

/-- The loop of `nvs_set_string`. -/
def nvs_set_string_loop (key str_val : List Nat) : Table → Bool × Table
  | [] => (false, [])
  | none :: rest => (true, some (new_string_entry key str_val) :: rest)
  | some e :: rest =>
    if strncmp_zero e.data.key key KEY_MAX_LEN then
      if e.data.type != TYPE_STRING then (false, some e :: rest)
      else if e.deleted then (false, some e :: rest)
      else
        (true, some { e with
                      modified := true
                      data := { e.data with
                                value := strncpy e.data.value str_val (VALUE_STR_MAX_LEN - 1) } }
                :: rest)
    else
      ((nvs_set_string_loop key str_val rest).1,
        some e :: (nvs_set_string_loop key str_val rest).2)

/-- Function `nvs_set_string`: the result and the table it leaves. -/
def nvs_set_string (tbl : Table) (key str_val : List Nat) : Bool × Table :=
  if strlen key ≥ KEY_MAX_LEN then (false, tbl) else nvs_set_string_loop key str_val tbl

/-! ## `nvs_get_uint32` and `nvs_get_string`

Both leave the table alone; `none` is the result `false` (the out parameter is
not written), `some x` is the result `true` with `x` what the out parameter
holds afterwards. -/

/-- The loop of `nvs_get_uint32`. -/
def nvs_get_uint32_loop (key : List Nat) : Table → Option Nat
  | [] => none
  | none :: _ => none
  | some e :: rest =>
    if strncmp_zero e.data.key key KEY_MAX_LEN then
      if e.data.type != TYPE_UINT32 then none
      else if e.deleted then none
      else some (get_uint_val e.data.value)
    else nvs_get_uint32_loop key rest

/-- Function `nvs_get_uint32`. -/
def nvs_get_uint32 (tbl : Table) (key : List Nat) : Option Nat :=
  if strlen key ≥ KEY_MAX_LEN then none else nvs_get_uint32_loop key tbl

/-- The loop of `nvs_get_string`; `buf` is the caller's buffer before the call. -/
def nvs_get_string_loop (key buf : List Nat) (buf_len : Nat) : Table → Option (List Nat)
  | [] => none
  | none :: _ => none
  | some e :: rest =>
    if strncmp_zero e.data.key key KEY_MAX_LEN then
      if e.data.type != TYPE_STRING then none
      else if e.deleted then none
      else some (strncpy buf e.data.value buf_len)
    else nvs_get_string_loop key buf buf_len rest

/-- Function `nvs_get_string`. -/
def nvs_get_string (tbl : Table) (key buf : List Nat) (buf_len : Nat) : Option (List Nat) :=
  if strlen key ≥ KEY_MAX_LEN then none else nvs_get_string_loop key buf buf_len tbl

/-! ## `compute_crc32` -/

/-- One pass of the inner loop: `crc = (crc >> 1) ^ (0xEDB88320U & -(int)(crc & 1))`.
The negated int, converted to `uint32_t`, is `2 ^ 32 - (crc & 1)` modulo `2 ^ 32`. -/
def crc_step (crc : Nat) : Nat :=
  (crc >>> 1) ^^^ (0xEDB88320 &&& ((2 ^ 32 - (crc &&& 1)) % 2 ^ 32))

/-- One pass of the outer loop: `crc ^= buf[i]`, then eight inner passes. -/
def crc_byte (crc b : Nat) : Nat := Nat.iterate crc_step 8 (crc ^^^ (b % 256))

/-- Function `compute_crc32(data, len)`; `~crc` on 32 bits is the xor with
`0xFFFFFFFF`. -/
def compute_crc32 (data : List Nat) (len : Nat) : Nat :=
  ((data.take len).foldl crc_byte 0xFFFFFFFF) ^^^ 0xFFFFFFFF

/-- The bytes of a `Data` in memory: tag (4 bytes, least significant first), key
(32 bytes), value (64 bytes). -/
def data_bytes (d : Data) : List Nat := u32_bytes d.type ++ d.key ++ d.value

/-- The size `sizeof(Data)`. -/
def SIZEOF_DATA : Nat := 4 + KEY_MAX_LEN + VALUE_STR_MAX_LEN

/-- The checksum `compute_crc32(&entry.data, sizeof(Data))`. -/
def entry_crc (e : NVS_Entry) : Nat := compute_crc32 (data_bytes e.data) SIZEOF_DATA

/-! ## `nvs_init`

The file is the list of the whole 128-byte records `fread` returns before it
reports the end; `none` stands for a file `fopen` cannot open.  The block
`malloc` returns is not initialised: `malloc n` is what the block allocated for
the `n`-th record of the file holds.  A store to `nvs_entries[entry_idx]` with
`entry_idx ≥ MAX_NVS_RAM` lies outside the array: the result is then `none`. -/

/-- The table after the first loop of `nvs_init`: every slot is NULL. -/
def empty_table : Table := List.replicate MAX_NVS_RAM none

/-- What one pass of the `while` loop leaves in the entry it allocated. -/
def init_entry (junk entry : NVS_Entry) : NVS_Entry :=
  { junk with
    deleted := false
    modified := false
    data :=
      { type := entry.data.type,
        key := strncpy junk.data.key entry.data.key KEY_MAX_LEN,
        value :=
          if entry.data.type = TYPE_UINT32 then
            set_uint_val junk.data.value (get_uint_val entry.data.value)
          else if entry.data.type = TYPE_STRING then
            strncpy junk.data.value entry.data.value VALUE_STR_MAX_LEN
          else junk.data.value } }

/-- The `while (fread(...) == 1)` loop of `nvs_init`: the records still to read,
the number of records read so far, the table and `entry_idx`. -/
def nvs_init_loop (mock_corruption : Bool) (malloc : Nat → NVS_Entry) :
    List NVS_Entry → Nat → Table → Nat → Option Table
  | [], _, tbl, _ => some tbl
  | entry :: file, n, tbl, entry_idx =>
    if entry_crc entry
        != (if mock_corruption then (entry.crc32 + 2 ^ 32 - 1) % 2 ^ 32 else entry.crc32) then
      nvs_init_loop mock_corruption malloc file (n + 1) tbl entry_idx
    else if entry_idx ≥ MAX_NVS_RAM then none
    else if entry.data.type = TYPE_UINT32 ∨ entry.data.type = TYPE_STRING then
      nvs_init_loop mock_corruption malloc file (n + 1)
        (tbl.set entry_idx (some (init_entry (malloc n) entry))) (entry_idx + 1)
    else
      nvs_init_loop mock_corruption malloc file (n + 1)
        (tbl.set entry_idx (some (init_entry (malloc n) entry))) entry_idx

/-- Function `nvs_init`: the result and the table it leaves. -/
def nvs_init (mock_corruption : Bool) (malloc : Nat → NVS_Entry)
    (file : Option (List NVS_Entry)) : Option (Bool × Table) :=
  match file with
  | none => some (false, empty_table)
  | some records =>
    (nvs_init_loop mock_corruption malloc records 0 empty_table 0).map (fun tbl => (true, tbl))

/-! ## `nvs_commit`

The local `nvs_buffer` is not initialised: its two entries at the call are a
parameter.  `fwrite_ok p` tells whether the write of page number `p` succeeds; a
failed write is taken to leave the file as it was. -/

/-- The entry after `nvs_entries[i]->crc32 = compute_crc32(&nvs_entries[i]->data,
sizeof(Data))`. -/
def with_crc (e : NVS_Entry) : NVS_Entry := { e with crc32 := entry_crc e }

/-- Function `write_nvs_buffer_to_file`: result, buffer and file afterwards. -/
def write_nvs_buffer_to_file (ok : Bool) (nvs_buffer : NVS_Entry × NVS_Entry)
    (file : List NVS_Entry) : Bool × (NVS_Entry × NVS_Entry) × List NVS_Entry :=
  if ok then (true, (calloc_entry, calloc_entry), file ++ [nvs_buffer.1, nvs_buffer.2])
  else (false, nvs_buffer, file)

/-- The `for` loop of `nvs_commit`: slots still to visit, `nvs_buffer`, `counter`,
`commited` and the file; it gives the value of `commited` at the end, the file
and the slots, whose entries had their `crc32` field recomputed. -/
def nvs_commit_loop (fwrite_ok : Nat → Bool) :
    Table → NVS_Entry × NVS_Entry → Nat → Bool → List NVS_Entry → Bool × List NVS_Entry × Table
  | [], _, _, commited, file => (commited, file, [])
  | none :: rest, nvs_buffer, counter, commited, file =>
    if counter > 0 then
      ((write_nvs_buffer_to_file (fwrite_ok (file.length / 2)) nvs_buffer file).1,
        (write_nvs_buffer_to_file (fwrite_ok (file.length / 2)) nvs_buffer file).2.2,
        none :: rest)
    else (commited, file, none :: rest)
  | some e :: rest, nvs_buffer, counter, commited, file =>
    if e.deleted then
      ((nvs_commit_loop fwrite_ok rest nvs_buffer counter commited file).1,
        (nvs_commit_loop fwrite_ok rest nvs_buffer counter commited file).2.1,
        some e :: (nvs_commit_loop fwrite_ok rest nvs_buffer counter commited file).2.2)
    else
      let e1 : NVS_Entry := with_crc e
      let buf1 : NVS_Entry × NVS_Entry :=
        if counter = 0 then (e1, nvs_buffer.2) else (nvs_buffer.1, e1)
      if counter + 1 = 2 then
        let w := write_nvs_buffer_to_file (fwrite_ok (file.length / 2)) buf1 file
        if w.1 = false then (false, w.2.2, some e1 :: rest)
        else
          ((nvs_commit_loop fwrite_ok rest w.2.1 0 w.1 w.2.2).1,
            (nvs_commit_loop fwrite_ok rest w.2.1 0 w.1 w.2.2).2.1,
            some e1 :: (nvs_commit_loop fwrite_ok rest w.2.1 0 w.1 w.2.2).2.2)
      else
        ((nvs_commit_loop fwrite_ok rest buf1 (counter + 1) commited file).1,
          (nvs_commit_loop fwrite_ok rest buf1 (counter + 1) commited file).2.1,
          some e1 :: (nvs_commit_loop fwrite_ok rest buf1 (counter + 1) commited file).2.2)

/-- Function `nvs_commit`: the result, the file and the table afterwards.
`fopen_ok` tells whether `fopen(NVS_FILE, "wb+")` succeeds (it then truncates
the file), `old_file` is the file before the call. -/
def nvs_commit (tbl : Table) (nvs_buffer : NVS_Entry × NVS_Entry) (fopen_ok : Bool)
    (fwrite_ok : Nat → Bool) (old_file : List NVS_Entry) : Bool × List NVS_Entry × Table :=
  if fopen_ok then nvs_commit_loop fwrite_ok tbl nvs_buffer 0 false []
  else (false, old_file, tbl)

/-! ## Notions used to state the properties -/

/-- The scan that `nvs_delete_entry`, the two setters and the two getters share:
from slot 0 on, stop at the first empty slot (nothing found) or at the first
entry whose key compares equal to `key` (found, deleted or not). -/
def find_entry (key : List Nat) : Table → Option NVS_Entry
  | [] => none
  | none :: _ => none
  | some e :: rest =>
    if strncmp_zero e.data.key key KEY_MAX_LEN then some e else find_entry key rest

/-- The key of the demonstration in `main.c`, "name". -/
def key_name : List Nat := [110, 97, 109, 101]

/-- The key of the demonstration in `main.c`, "sample_rate". -/
def key_sample_rate : List Nat := [115, 97, 109, 112, 108, 101, 95, 114, 97, 116, 101]

/-- The value of the demonstration in `main.c`, "Paul-M". -/
def val_paul : List Nat := [80, 97, 117, 108, 45, 77]

/-- A record of kind string under the key "name" whose 64 value bytes are all
`A`, with the checksum of its payload: the value holds no terminator. -/
def unterminated_record : NVS_Entry :=
  { crc32 := compute_crc32
      (u32_bytes TYPE_STRING ++ (key_name ++ List.replicate 28 0) ++ List.replicate 64 65)
      SIZEOF_DATA,
    deleted := false, modified := false,
    data := { type := TYPE_STRING, key := key_name ++ List.replicate 28 0,
              value := List.replicate 64 65 } }

/-- The table `nvs_init` builds from the file that holds `unterminated_record`
alone, when `malloc` hands out zeroed blocks. -/
def unterminated_table : Table :=
  some { calloc_entry with data := unterminated_record.data } :: List.replicate 99 none

/-- A string of 63 characters, all `B`. -/
def str63 : List Nat := List.replicate 63 66

/-- A table in which "name" holds a string of 40 characters. -/
def long_name_table : Table := (nvs_set_string empty_table key_name (List.replicate 40 66)).2

/-- The table of the demonstration in `main.c` after its first two setters:
"sample_rate" holds 44100 and "name" holds "Paul-M". -/
def demo_table : Table :=
  (nvs_set_string (nvs_set_uint32 empty_table key_sample_rate 44100).2 key_name val_paul).2

/-- A call of one of the three functions that change the table. -/
inductive Op where
  | set_uint32 (key : List Nat) (val : Nat)
  | set_string (key str_val : List Nat)
  | delete_entry (key : List Nat)

/-- The table a call leaves, whatever it returns. -/
def apply_op (tbl : Table) : Op → Table
  | Op.set_uint32 key val => (nvs_set_uint32 tbl key val).2
  | Op.set_string key str_val => (nvs_set_string tbl key str_val).2
  | Op.delete_entry key => (nvs_delete_entry tbl key).2

/-- The table a sequence of calls leaves. -/
def run_ops (tbl : Table) (ops : List Op) : Table := ops.foldl apply_op tbl

/-- Number of records in the table: the slots that are not NULL. -/
def num_records (tbl : Table) : Nat := (tbl.filter Option.isSome).length

/-- Compactness: no empty slot precedes an occupied one. -/
def compact (tbl : Table) : Prop :=
  ∀ i j : Nat, i < j → tbl.getD i none = none → tbl.getD j none = none

/-- Compactness, computed along the slots. -/
def compactb : Table → Bool
  | [] => true
  | none :: rest => rest.all Option.isNone
  | some _ :: rest => compactb rest

/-- A table whose 100 slots are occupied, by integers under the two-letter keys
"A0", "A1", ... -/
def full_table : Table :=
  (List.range MAX_NVS_RAM).map (fun i => some (new_uint32_entry [65 + i / 10, 48 + i % 10] i))

/-- A key of 31 characters. -/
def key31 : List Nat := List.replicate 31 107

/-- A key of 32 characters. -/
def key32 : List Nat := List.replicate 32 107

/-- The calls of `main.c` that change the table. -/
def demo_ops : List Op :=
  [Op.set_uint32 key_sample_rate 44100, Op.set_string key_name val_paul,
    Op.set_uint32 [98, 97, 117, 100, 95, 114, 97, 116, 101] 115200,
    Op.delete_entry key_sample_rate]

/-- The checksum test of `nvs_init` without mocked corruption: the stored
checksum equals `compute_crc32` of the payload. -/
def crc_valid (r : NVS_Entry) : Bool := entry_crc r == r.crc32

/-- Entry `e` of the table carries file record `r`: same kind, same key (as the
string held by the 32 key bytes), same value (the integer for `TYPE_UINT32`, the
string held by the 64 value bytes for `TYPE_STRING`), not deleted, not modified. -/
def loaded_from (e r : NVS_Entry) : Prop :=
  e.data.type = r.data.type
    ∧ cstrn KEY_MAX_LEN e.data.key = cstrn KEY_MAX_LEN r.data.key
    ∧ (r.data.type = TYPE_UINT32 → get_uint_val e.data.value = get_uint_val r.data.value)
    ∧ (r.data.type = TYPE_STRING →
        cstrn VALUE_STR_MAX_LEN e.data.value = cstrn VALUE_STR_MAX_LEN r.data.value)
    ∧ e.deleted = false ∧ e.modified = false

/-- A file of three records: "sample_rate" = 44100 with its checksum, then
"name" = "Paul-M" with a checksum that is off by one, then "A0" = 0 with its
checksum. -/
def demo_file : List NVS_Entry :=
  [with_crc (new_uint32_entry key_sample_rate 44100),
    { new_string_entry key_name val_paul with
      crc32 := (entry_crc (new_string_entry key_name val_paul) + 1) % 2 ^ 32 },
    with_crc (new_uint32_entry [65, 48] 0)]

/-- The records `nvs_commit` is to write: the entries before the first empty
slot that are not deleted, in slot order, each with its checksum recomputed. -/
def live_records : Table → List NVS_Entry
  | [] => []
  | none :: _ => []
  | some e :: rest => if e.deleted then live_records rest else with_crc e :: live_records rest

/-- Records laid out two per page.  A last record alone is written as a page
with `filler` in the second slot when `flush` holds, and is not written at all
otherwise; after the first page the filler is the zeroed buffer. -/
def pages (filler : NVS_Entry) (flush : Bool) : List NVS_Entry → List NVS_Entry
  | [] => []
  | [a] => if flush then [a, filler] else []
  | a :: b :: rest => a :: b :: pages calloc_entry flush rest

/-- The full table with its first record, "A0", deleted: 100 occupied slots, 99
records that are not deleted. -/
def full_table_one_deleted : Table := (nvs_delete_entry full_table [65, 48]).2

/-- The key of the last record of `full_table`, "J9". -/
def key_last : List Nat := [74, 57]

/-- Two slots do not hold entries whose keys compare equal. -/
def distinct_keys (a b : Option NVS_Entry) : Bool :=
  match a, b with
  | some x, some y => !strncmp_zero x.data.key y.data.key KEY_MAX_LEN
  | _, _ => true

/-- Keys are unique: no two entries of the table, deleted or not, have keys that
compare equal. -/
def keys_unique : Table → Bool
  | [] => true
  | slot :: rest => rest.all (distinct_keys slot) && keys_unique rest

/-- The key of the demonstration in `main.c`, "baud_rate". -/
def key_baud_rate : List Nat := [98, 97, 117, 100, 95, 114, 97, 116, 101]

/-- The table with "baud_rate" = 115200 in slot 0 and "sample_rate" = 44100 in
slot 1. -/
def two_key_table : Table :=
  (nvs_set_uint32 (nvs_set_uint32 empty_table key_baud_rate 115200).2 key_sample_rate 44100).2

/-- A write buffer whose second entry holds, at the call of `nvs_commit`, the
bytes of the record "sample_rate" = 44100 with its checksum, as left on the
stack by an earlier read of that record. -/
def stale_buffer : NVS_Entry × NVS_Entry :=
  (calloc_entry, with_crc (new_uint32_entry key_sample_rate 44100))

/-- The reference CRC-32 of the specification, one of the 8 iterations: shift
right by one, and xor with `0xEDB88320` iff the bit shifted out was 1. -/
def crc32_spec_bit (crc : Nat) : Nat :=
  if crc % 2 = 1 then (crc >>> 1) ^^^ 0xEDB88320 else crc >>> 1

/-- The reference CRC-32 of the specification, one byte: xor the byte into the
low byte of the running value, then 8 iterations. -/
def crc32_spec_byte (crc b : Nat) : Nat := Nat.iterate crc32_spec_bit 8 (crc ^^^ b)

/-- The reference CRC-32 of the specification: start at `0xFFFFFFFF`, take the
bytes in order, complement the 32-bit result at the end. -/
def crc32_spec (bytes : List Nat) : Nat :=
  0xFFFFFFFF - bytes.foldl crc32_spec_byte 0xFFFFFFFF

/-- The ASCII bytes of "123456789". -/
def check_string : List Nat := [49, 50, 51, 52, 53, 54, 55, 56, 57]

/-- The entry `nvs_set_uint32` leaves when it finds the key: `uint_val` and
`modified` are written, nothing else. -/
def updated_uint32 (e : NVS_Entry) (val : Nat) : NVS_Entry :=
  { e with modified := true, data := { e.data with value := set_uint_val e.data.value val } }

/-- The entry `nvs_set_string` leaves when it finds the key: the first 63 bytes
of `str_val` and `modified` are written, nothing else. -/
def updated_string (e : NVS_Entry) (str_val : List Nat) : NVS_Entry :=
  { e with
    modified := true
    data := { e.data with value := strncpy e.data.value str_val (VALUE_STR_MAX_LEN - 1) } }

/-- The table with the single record "baud_rate" = 115200. -/
def one_key_table : Table := (nvs_set_uint32 empty_table key_baud_rate 115200).2

/-- The table whose single record, "baud_rate", is deleted. -/
def tombstone_table : Table := (nvs_delete_entry one_key_table key_baud_rate).2

/-- A file of 101 records with the right checksum. -/
def overflow_file : List NVS_Entry :=
  List.replicate 101 (with_crc (new_uint32_entry key_name 1))

/-- The record "name" = 1 as `nvs_commit` writes it. -/
def written_record : NVS_Entry := with_crc (new_uint32_entry key_name 1)

/-- The record `written_record` after the first byte of its value was changed
from 1 to 3 in the file: one bit of the payload is altered, the stored checksum
is the one `nvs_commit` wrote. -/
def altered_record : NVS_Entry :=
  { written_record with
    data := { written_record.data with value := 3 :: List.replicate 63 0 } }

/-- A record under the key "name" whose kind tag is 7, neither `TYPE_UINT32`
nor `TYPE_STRING`, with the checksum of its payload. -/
def unknown_kind_record : NVS_Entry :=
  with_crc { calloc_entry with
    data := { type := 7, key := key_name ++ List.replicate 28 0,
              value := List.replicate 64 0 } }

/-- The record has a right checksum and a known kind. -/
def valid_known (r : NVS_Entry) : Bool :=
  crc_valid r && (r.data.type == TYPE_UINT32 || r.data.type == TYPE_STRING)

/-- What the loop of `nvs_init(false)` leaves at `nvs_entries[entry_idx]`, the
slot after the loaded records, given what that slot held: the entry built for
the last record with a right checksum when the kind of that record is unknown,
nothing when its kind is known. -/
def stale_entry (malloc : Nat → NVS_Entry) : List NVS_Entry → Nat → Option NVS_Entry →
    Option NVS_Entry
  | [], _, x => x
  | r :: file, n, x =>
    if crc_valid r then
      if r.data.type = TYPE_UINT32 ∨ r.data.type = TYPE_STRING then
        stale_entry malloc file (n + 1) none
      else stale_entry malloc file (n + 1) (some (init_entry (malloc n) r))
    else stale_entry malloc file (n + 1) x

/-! # Lemmas on the C library functions -/

theorem takeWhile_take_comm (p : Nat → Bool) (n : Nat) (l : List Nat) :
    (l.take n).takeWhile p = (l.takeWhile p).take n := by
  induction l generalizing n with
  | nil => simp
  | cons x xs ih =>
    cases n with
    | zero => simp
    | succ m =>
      by_cases hx : p x = true
      · simp [List.take, List.takeWhile, hx, ih]
      · simp [List.take, List.takeWhile, hx]

theorem cstrn_nil (n : Nat) : cstrn n [] = [] := by
  simp [cstrn]

theorem cstrn_zero (l : List Nat) : cstrn 0 l = [] := by
  simp [cstrn]

theorem cstrn_cons_zero (n : Nat) (xs : List Nat) : cstrn (n + 1) (0 :: xs) = [] := by
  simp [cstrn, List.takeWhile]

theorem cstrn_cons_pos (n x : Nat) (xs : List Nat) (hx : x ≠ 0) :
    cstrn (n + 1) (x :: xs) = x :: cstrn n xs := by
  have hb : (x != 0) = true := by simpa using hx
  simp [cstrn, List.takeWhile, hb]

theorem strncmp_zero_iff (a b : List Nat) (n : Nat) :
    strncmp_zero a b n = true ↔ cstrn n a = cstrn n b := by
  induction n generalizing a b with
  | zero => simp [strncmp_zero, cstrn]
  | succ m ih =>
    cases a with
    | nil =>
      cases b with
      | nil => simp [strncmp_zero, cstrn]
      | cons y ys =>
        by_cases hy : y = 0
        · subst hy
          simp [strncmp_zero, cstrn_nil, cstrn_cons_zero]
        · have hy' : ¬ (0 = y) := fun h => hy h.symm
          simp [strncmp_zero, cstrn_nil, cstrn_cons_pos _ _ _ hy, hy, hy']
    | cons x xs =>
      cases b with
      | nil =>
        by_cases hx : x = 0
        · subst hx
          simp [strncmp_zero, cstrn_nil, cstrn_cons_zero]
        · simp [strncmp_zero, cstrn_nil, cstrn_cons_pos _ _ _ hx, hx]
      | cons y ys =>
        by_cases hx : x = 0
        · subst hx
          by_cases hy : y = 0
          · subst hy
            simp [strncmp_zero, cstrn_cons_zero]
          · have hy' : ¬ (0 = y) := fun h => hy h.symm
            simp [strncmp_zero, cstrn_cons_zero, cstrn_cons_pos _ _ _ hy, hy, hy']
        · by_cases hy : y = 0
          · subst hy
            simp [strncmp_zero, cstrn_cons_zero, cstrn_cons_pos _ _ _ hx, hx]
          · by_cases hxy : x = y
            · subst hxy
              simp [strncmp_zero, cstrn_cons_pos _ _ _ hx, hx, ih xs ys]
            · simp [strncmp_zero, cstrn_cons_pos _ _ _ hx, cstrn_cons_pos _ _ _ hy, hxy]

theorem takeWhile_nz_ne (l : List Nat) : ∀ b ∈ l.takeWhile (fun b => b != 0), b ≠ 0 := by
  intro b hb
  have := List.mem_takeWhile_imp hb
  simpa using this

theorem takeWhile_append_stop (s r : List Nat) (hs : ∀ b ∈ s, b ≠ 0) (hr : r.headD 0 = 0) :
    (s ++ r).takeWhile (fun b => b != 0) = s := by
  induction s with
  | nil =>
    cases r with
    | nil => rfl
    | cons y ys =>
      simp only [List.headD_cons] at hr
      subst hr
      simp [List.takeWhile]
  | cons x xs ih =>
    have hx : x ≠ 0 := hs x (List.mem_cons_self _ _)
    have hb : (x != 0) = true := by simpa using hx
    have := ih (fun b hb => hs b (List.mem_cons_of_mem _ hb))
    simp [List.takeWhile, hb, this]

theorem takeWhile_strncpy (dst src : List Nat) (n : Nat) (hlen : strlen src ≤ n)
    (hz : strlen src < n ∨ (dst.drop n).headD 0 = 0) :
    (strncpy dst src n).takeWhile (fun b => b != 0) = src.takeWhile (fun b => b != 0) := by
  unfold strncpy
  unfold strlen at hlen hz
  rw [List.take_of_length_le hlen, List.append_assoc]
  apply takeWhile_append_stop _ _ (takeWhile_nz_ne src)
  rcases hz with hz | hz
  · obtain ⟨k, hk⟩ : ∃ k, n - (src.takeWhile (fun b => b != 0)).length = k + 1 :=
      ⟨n - (src.takeWhile (fun b => b != 0)).length - 1, by omega⟩
    rw [hk, List.replicate_succ]
    rfl
  · cases hk : n - (src.takeWhile (fun b => b != 0)).length with
    | zero => simpa using hz
    | succ k => rw [List.replicate_succ]; rfl

theorem cstrn_of_strlen_le (m : Nat) (l : List Nat) (hm : strlen l ≤ m) :
    cstrn m l = l.takeWhile (fun b => b != 0) := by
  unfold cstrn
  rw [takeWhile_take_comm]
  exact List.take_of_length_le hm

theorem cstrn_strncpy (dst src : List Nat) (n m : Nat) (hlen : strlen src ≤ n)
    (hm : strlen src ≤ m) (hz : strlen src < n ∨ (dst.drop n).headD 0 = 0) :
    cstrn m (strncpy dst src n) = src.takeWhile (fun b => b != 0) := by
  unfold cstrn
  rw [takeWhile_take_comm, takeWhile_strncpy dst src n hlen hz]
  exact List.take_of_length_le hm

theorem get_set_uint_val (value : List Nat) (v : Nat) :
    get_uint_val (set_uint_val value v) = v % 2 ^ 32 := by
  simp only [get_uint_val, set_uint_val, u32_bytes, List.getD_eq_getElem?_getD]
  simp
  omega

/-- A freshly created entry compares equal to the key it was created for. -/
theorem new_key_match (key : List Nat) (h : strlen key < KEY_MAX_LEN) :
    strncmp_zero (strncpy calloc_entry.data.key key (KEY_MAX_LEN - 1)) key KEY_MAX_LEN
      = true := by
  rw [strncmp_zero_iff]
  have h31 : strlen key ≤ KEY_MAX_LEN - 1 := by simp only [KEY_MAX_LEN] at h ⊢; omega
  rw [cstrn_strncpy _ _ _ _ h31 (le_of_lt h) (Or.inr (by decide)),
    cstrn_of_strlen_le _ _ (le_of_lt h)]

/-! # Round trip of integers -/

theorem set_uint32_loop_get (key : List Nat) (val : Nat) (h : strlen key < KEY_MAX_LEN)
    (tbl : Table) (hs : (nvs_set_uint32_loop key val tbl).1 = true) :
    nvs_get_uint32_loop key (nvs_set_uint32_loop key val tbl).2 = some (val % 2 ^ 32) := by
  induction tbl with
  | nil => simp [nvs_set_uint32_loop] at hs
  | cons s rest ih =>
    cases s with
    | none =>
      have hc : calloc_entry.deleted = false := rfl
      simp [nvs_set_uint32_loop, nvs_get_uint32_loop, new_uint32_entry, new_key_match key h,
        get_set_uint_val, hc]
    | some e =>
      by_cases hm : strncmp_zero e.data.key key KEY_MAX_LEN = true
      · by_cases hd : e.deleted = true
        · simp [nvs_set_uint32_loop, hm, hd] at hs
        · by_cases ht : e.data.type = TYPE_UINT32
          · simp [nvs_set_uint32_loop, nvs_get_uint32_loop, hm, hd, ht, get_set_uint_val]
          · simp [nvs_set_uint32_loop, hm, hd, ht] at hs
      · simp only [nvs_set_uint32_loop, hm] at hs ⊢
        simp only [Bool.false_eq_true, if_false] at hs ⊢
        simp only [nvs_get_uint32_loop, hm, Bool.false_eq_true, if_false]
        exact ih hs

/-- C1. Round trip for integers: whatever the table, the key `k` and the 32-bit
value `v`, when `nvs_set_uint32 k v` returns true, `nvs_get_uint32 k` called
right after returns true with the value `v`. -/
theorem C1_set_uint32_get_uint32 (tbl : Table) (k : List Nat) (v : Nat) (hv : v < 2 ^ 32)
    (hset : (nvs_set_uint32 tbl k v).1 = true) :
    nvs_get_uint32 (nvs_set_uint32 tbl k v).2 k = some v := by
  unfold nvs_set_uint32 at hset ⊢
  by_cases hk : strlen k ≥ KEY_MAX_LEN
  · simp [hk] at hset
  · simp only [hk, if_false] at hset ⊢
    simp only [nvs_get_uint32, hk, if_false]
    rw [set_uint32_loop_get k v (by omega) tbl hset, Nat.mod_eq_of_lt hv]

/-- C1, at the call of `main.c`: "sample_rate" set to 44100 in the empty table. -/
theorem C1_set_uint32_get_uint32_witness :
    (44100 < 2 ^ 32 ∧ (nvs_set_uint32 empty_table key_sample_rate 44100).1 = true)
      ∧ nvs_get_uint32 (nvs_set_uint32 empty_table key_sample_rate 44100).2 key_sample_rate
          = some 44100 :=
  ⟨⟨by decide, by decide⟩,
    C1_set_uint32_get_uint32 empty_table key_sample_rate 44100 (by decide) (by decide)⟩

/-! # Round trip of strings -/

theorem getD_eq_headD_drop (l : List Nat) (n : Nat) : (l.drop n).headD 0 = l.getD n 0 := by
  induction l generalizing n with
  | nil => simp
  | cons x xs ih =>
    cases n with
    | zero => simp
    | succ m => simp

theorem takeWhile_nz_id (s : List Nat) (hs : ∀ b ∈ s, b ≠ 0) :
    s.takeWhile (fun b => b != 0) = s := by
  have := takeWhile_append_stop s [] hs rfl
  simpa using this

theorem strlen_eq_length (s : List Nat) (hs : ∀ b ∈ s, b ≠ 0) : strlen s = s.length := by
  unfold strlen
  rw [takeWhile_nz_id s hs]

/-- Copying out a stored string: when the stored bytes hold the C string `s` and
the capacity exceeds its length, the buffer receives `s` and then 0 bytes. -/
theorem strncpy_out (buf stored s : List Nat) (cap : Nat)
    (hst : stored.takeWhile (fun b => b != 0) = s) (hcap : s.length < cap) :
    strncpy buf stored cap = s ++ List.replicate (cap - s.length) 0 ++ buf.drop cap := by
  unfold strncpy
  rw [hst, List.take_of_length_le (le_of_lt hcap)]

theorem set_string_loop_get (key s buf : List Nat) (cap : Nat) (h : strlen key < KEY_MAX_LEN)
    (hs : ∀ b ∈ s, b ≠ 0) (hlen : s.length ≤ VALUE_STR_MAX_LEN - 1) (hcap : s.length < cap)
    (tbl : Table)
    (hterm : s.length < VALUE_STR_MAX_LEN - 1 ∨
      ∀ e, find_entry key tbl = some e → e.data.value.getD (VALUE_STR_MAX_LEN - 1) 0 = 0)
    (hset : (nvs_set_string_loop key s tbl).1 = true) :
    nvs_get_string_loop key buf cap (nvs_set_string_loop key s tbl).2
      = some (s ++ List.replicate (cap - s.length) 0 ++ buf.drop cap) := by
  have hsl : strlen s = s.length := strlen_eq_length s hs
  induction tbl with
  | nil => simp [nvs_set_string_loop] at hset
  | cons slot rest ih =>
    cases slot with
    | none =>
      have hc : calloc_entry.deleted = false := rfl
      have hst : (strncpy calloc_entry.data.value s (VALUE_STR_MAX_LEN - 1)).takeWhile
          (fun b => b != 0) = s := by
        rw [takeWhile_strncpy _ _ _ (by omega) (Or.inr (by decide)), takeWhile_nz_id s hs]
      simp [nvs_set_string_loop, nvs_get_string_loop, new_string_entry, new_key_match key h, hc,
        strncpy_out buf _ s cap hst hcap]
    | some e =>
      by_cases hm : strncmp_zero e.data.key key KEY_MAX_LEN = true
      · by_cases ht : e.data.type = TYPE_STRING
        · by_cases hd : e.deleted = true
          · simp [nvs_set_string_loop, hm, hd, ht] at hset
          · have hst : (strncpy e.data.value s (VALUE_STR_MAX_LEN - 1)).takeWhile
                (fun b => b != 0) = s := by
              rw [takeWhile_strncpy _ _ _ (by omega), takeWhile_nz_id s hs]
              rcases hterm with hlt | hz
              · exact Or.inl (by omega)
              · right
                rw [getD_eq_headD_drop]
                exact hz e (by simp [find_entry, hm])
            simp [nvs_set_string_loop, nvs_get_string_loop, hm, hd, ht,
              strncpy_out buf _ s cap hst hcap]
        · simp [nvs_set_string_loop, hm, ht] at hset
      · simp only [nvs_set_string_loop, hm] at hset ⊢
        simp only [Bool.false_eq_true, if_false] at hset ⊢
        simp only [nvs_get_string_loop, hm, Bool.false_eq_true, if_false]
        apply ih _ hset
        rcases hterm with hlt | hz
        · exact Or.inl hlt
        · right
          intro e1 he1
          exact hz e1 (by simpa [find_entry, hm] using he1)

/-- What holds of the round trip for strings: whatever the table, the key `k`
and the string `s` of at most 63 characters, when `nvs_set_string k s` returns
true, `nvs_get_string k buf cap` called right after with `cap` above the length
of `s` returns true and leaves `s` followed by 0 bytes in the first `cap` bytes
of `buf`, also when `s` replaces a longer string, as long as `s` has fewer than
63 characters or the record found under `k`, if there is one, has the
terminator the setter relies on in the last byte of its value buffer. -/
theorem set_string_get_string_terminated (tbl : Table) (k s buf : List Nat) (cap : Nat)
    (hs : ∀ b ∈ s, b ≠ 0) (hlen : s.length ≤ 63) (hcap : s.length < cap)
    (hterm : s.length = 63 → ∀ e, find_entry k tbl = some e → e.data.value.getD 63 0 = 0)
    (hset : (nvs_set_string tbl k s).1 = true) :
    nvs_get_string (nvs_set_string tbl k s).2 k buf cap
      = some (s ++ List.replicate (cap - s.length) 0 ++ buf.drop cap) := by
  unfold nvs_set_string at hset ⊢
  by_cases hk : strlen k ≥ KEY_MAX_LEN
  · simp [hk] at hset
  · simp only [hk, if_false] at hset ⊢
    simp only [nvs_get_string, hk, if_false]
    apply set_string_loop_get k s buf cap (by omega) hs hlen hcap tbl _ hset
    by_cases h63 : s.length = 63
    · exact Or.inr (hterm h63)
    · left
      simp only [VALUE_STR_MAX_LEN]
      omega

/-- The round trip at a call that replaces a string of 40 characters stored
under "name" by "Paul-M" and reads it back into a buffer of 64 bytes. -/
theorem set_string_get_string_replaces_longer :
    ((∀ b ∈ val_paul, b ≠ 0) ∧ val_paul.length ≤ 63 ∧ val_paul.length < 64
        ∧ (val_paul.length = 63 →
            ∀ e, find_entry key_name long_name_table = some e → e.data.value.getD 63 0 = 0)
        ∧ (nvs_set_string long_name_table key_name val_paul).1 = true)
      ∧ nvs_get_string (nvs_set_string long_name_table key_name val_paul).2 key_name
          (List.replicate 64 1) 64
        = some (val_paul ++ List.replicate (64 - val_paul.length) 0
            ++ (List.replicate 64 1).drop 64) :=
  ⟨⟨by decide, by decide, by decide, fun h => absurd h (by decide), by decide⟩,
    set_string_get_string_terminated long_name_table key_name val_paul (List.replicate 64 1) 64
      (by decide) (by decide) (by decide) (fun h => absurd h (by decide)) (by decide)⟩

set_option maxRecDepth 100000 in
/-- C2 fails on a record loaded without a terminator: `nvs_init(false)` loads
`unterminated_record`, whose checksum is right and whose 64 value bytes are all
`A`, into slot 0; `nvs_set_string` then stores the 63 characters of `str63`
under "name" and returns true, copying `VALUE_STR_MAX_LEN - 1` bytes and leaving
byte 63 as it was; `nvs_get_string` with a capacity of 64 returns true and
leaves the 63 characters followed by that byte `A`, not by a 0. -/
theorem C2_unterminated_value_read_back :
    nvs_init false (fun _ => calloc_entry) (some [unterminated_record])
        = some (true, unterminated_table)
      ∧ (∀ b ∈ str63, b ≠ 0) ∧ str63.length ≤ 63
      ∧ (nvs_set_string unterminated_table key_name str63).1 = true
      ∧ nvs_get_string (nvs_set_string unterminated_table key_name str63).2 key_name
          (List.replicate 64 0) 64 = some (str63 ++ [65])
      ∧ nvs_get_string (nvs_set_string unterminated_table key_name str63).2 key_name
          (List.replicate 64 0) 64
        ≠ some (str63 ++ List.replicate (64 - str63.length) 0 ++ (List.replicate 64 0).drop 64) := by
  refine ⟨by decide, by decide, by decide, by decide, by decide, by decide⟩

/-! # The functions in terms of the shared scan -/

theorem set_uint32_loop_fail (key : List Nat) (val : Nat) (tbl : Table) (e : NVS_Entry)
    (hf : find_entry key tbl = some e) (hbad : e.deleted = true ∨ e.data.type ≠ TYPE_UINT32) :
    nvs_set_uint32_loop key val tbl = (false, tbl) := by
  induction tbl with
  | nil => simp [find_entry] at hf
  | cons slot rest ih =>
    cases slot with
    | none => simp [find_entry] at hf
    | some e1 =>
      by_cases hm : strncmp_zero e1.data.key key KEY_MAX_LEN = true
      · simp only [find_entry, hm, if_true, Option.some.injEq] at hf
        subst hf
        rcases hbad with hd | ht
        · simp [nvs_set_uint32_loop, hm, hd]
        · by_cases hd : e1.deleted = true
          · simp [nvs_set_uint32_loop, hm, hd]
          · simp [nvs_set_uint32_loop, hm, hd, ht]
      · simp only [find_entry, hm, Bool.false_eq_true, if_false] at hf
        simp [nvs_set_uint32_loop, hm, ih hf]

theorem set_string_loop_fail (key str_val : List Nat) (tbl : Table) (e : NVS_Entry)
    (hf : find_entry key tbl = some e) (hbad : e.deleted = true ∨ e.data.type ≠ TYPE_STRING) :
    nvs_set_string_loop key str_val tbl = (false, tbl) := by
  induction tbl with
  | nil => simp [find_entry] at hf
  | cons slot rest ih =>
    cases slot with
    | none => simp [find_entry] at hf
    | some e1 =>
      by_cases hm : strncmp_zero e1.data.key key KEY_MAX_LEN = true
      · simp only [find_entry, hm, if_true, Option.some.injEq] at hf
        subst hf
        rcases hbad with hd | ht
        · by_cases ht : e1.data.type = TYPE_STRING
          · simp [nvs_set_string_loop, hm, hd, ht]
          · simp [nvs_set_string_loop, hm, ht]
        · simp [nvs_set_string_loop, hm, ht]
      · simp only [find_entry, hm, Bool.false_eq_true, if_false] at hf
        simp [nvs_set_string_loop, hm, ih hf]

theorem set_uint32_fail (key : List Nat) (val : Nat) (tbl : Table) (e : NVS_Entry)
    (hf : find_entry key tbl = some e) (hbad : e.deleted = true ∨ e.data.type ≠ TYPE_UINT32) :
    nvs_set_uint32 tbl key val = (false, tbl) := by
  unfold nvs_set_uint32
  split
  · rfl
  · exact set_uint32_loop_fail key val tbl e hf hbad

theorem set_string_fail (key str_val : List Nat) (tbl : Table) (e : NVS_Entry)
    (hf : find_entry key tbl = some e) (hbad : e.deleted = true ∨ e.data.type ≠ TYPE_STRING) :
    nvs_set_string tbl key str_val = (false, tbl) := by
  unfold nvs_set_string
  split
  · rfl
  · exact set_string_loop_fail key str_val tbl e hf hbad

theorem get_uint32_loop_of_find (key : List Nat) (tbl : Table) :
    nvs_get_uint32_loop key tbl =
      match find_entry key tbl with
      | none => none
      | some e =>
        if e.data.type != TYPE_UINT32 then none
        else if e.deleted then none
        else some (get_uint_val e.data.value) := by
  induction tbl with
  | nil => simp [find_entry, nvs_get_uint32_loop]
  | cons slot rest ih =>
    cases slot with
    | none => simp [find_entry, nvs_get_uint32_loop]
    | some e1 =>
      by_cases hm : strncmp_zero e1.data.key key KEY_MAX_LEN = true
      · simp [find_entry, nvs_get_uint32_loop, hm]
      · simp [find_entry, nvs_get_uint32_loop, hm, ih]

theorem get_string_loop_of_find (key buf : List Nat) (buf_len : Nat) (tbl : Table) :
    nvs_get_string_loop key buf buf_len tbl =
      match find_entry key tbl with
      | none => none
      | some e =>
        if e.data.type != TYPE_STRING then none
        else if e.deleted then none
        else some (strncpy buf e.data.value buf_len) := by
  induction tbl with
  | nil => simp [find_entry, nvs_get_string_loop]
  | cons slot rest ih =>
    cases slot with
    | none => simp [find_entry, nvs_get_string_loop]
    | some e1 =>
      by_cases hm : strncmp_zero e1.data.key key KEY_MAX_LEN = true
      · simp [find_entry, nvs_get_string_loop, hm]
      · simp [find_entry, nvs_get_string_loop, hm, ih]

theorem delete_entry_find (key : List Nat) (tbl : Table)
    (hd : (nvs_delete_entry tbl key).1 = true) :
    ∃ e, find_entry key tbl = some e
      ∧ find_entry key (nvs_delete_entry tbl key).2 = some { e with deleted := true } := by
  induction tbl with
  | nil => simp [nvs_delete_entry] at hd
  | cons slot rest ih =>
    cases slot with
    | none => simp [nvs_delete_entry] at hd
    | some e1 =>
      by_cases hm : strncmp_zero e1.data.key key KEY_MAX_LEN = true
      · exact ⟨e1, by simp [find_entry, hm], by simp [nvs_delete_entry, find_entry, hm]⟩
      · simp only [nvs_delete_entry, hm, Bool.false_eq_true, if_false] at hd ⊢
        obtain ⟨e, h1, h2⟩ := ih hd
        exact ⟨e, by simp [find_entry, hm, h1], by simp [find_entry, hm, h2]⟩

/-! # Type immutability -/

/-- C5. Type immutability: in a table where the scan for `k1` stops at an entry
of kind `TYPE_UINT32`, `nvs_set_string k1 x` returns false for every `x` and
leaves the table as it was, so that `nvs_get_uint32 k1` still returns the stored
integer (for a key below 32 characters and an entry not deleted); in a table
where the scan for `k2` stops at an entry of kind `TYPE_STRING`,
`nvs_set_uint32 k2 v` returns false for every `v` and leaves the table as it
was, and `nvs_get_string k2` still returns the stored string. -/
theorem C5_type_immutability (tbl1 tbl2 : Table) (k1 k2 : List Nat) (e1 e2 : NVS_Entry)
    (h1 : find_entry k1 tbl1 = some e1) (t1 : e1.data.type = TYPE_UINT32)
    (h2 : find_entry k2 tbl2 = some e2) (t2 : e2.data.type = TYPE_STRING) :
    (∀ x, nvs_set_string tbl1 k1 x = (false, tbl1))
      ∧ (∀ x, strlen k1 < KEY_MAX_LEN → e1.deleted = false →
          nvs_get_uint32 (nvs_set_string tbl1 k1 x).2 k1 = some (get_uint_val e1.data.value))
      ∧ (∀ v, nvs_set_uint32 tbl2 k2 v = (false, tbl2))
      ∧ (∀ v buf cap, strlen k2 < KEY_MAX_LEN → e2.deleted = false →
          nvs_get_string (nvs_set_uint32 tbl2 k2 v).2 k2 buf cap
            = some (strncpy buf e2.data.value cap)) := by
  have hs : ∀ x, nvs_set_string tbl1 k1 x = (false, tbl1) := fun x =>
    set_string_fail k1 x tbl1 e1 h1 (Or.inr (by rw [t1]; decide))
  have hu : ∀ v, nvs_set_uint32 tbl2 k2 v = (false, tbl2) := fun v =>
    set_uint32_fail k2 v tbl2 e2 h2 (Or.inr (by rw [t2]; decide))
  refine ⟨hs, ?_, hu, ?_⟩
  · intro x hk hd
    have hk' : ¬ strlen k1 ≥ KEY_MAX_LEN := by omega
    rw [hs x]
    simp [nvs_get_uint32, hk', get_uint32_loop_of_find, h1, t1, hd]
  · intro v buf cap hk hd
    have hk' : ¬ strlen k2 ≥ KEY_MAX_LEN := by omega
    rw [hu v]
    simp [nvs_get_string, hk', get_string_loop_of_find, h2, t2, hd]

/-- C5 on the table of `main.c`: "sample_rate" is an integer and refuses a
string, "name" is a string and refuses an integer. -/
theorem C5_type_immutability_witness :
    (find_entry key_sample_rate demo_table = some (new_uint32_entry key_sample_rate 44100)
        ∧ (new_uint32_entry key_sample_rate 44100).data.type = TYPE_UINT32
        ∧ find_entry key_name demo_table = some (new_string_entry key_name val_paul)
        ∧ (new_string_entry key_name val_paul).data.type = TYPE_STRING)
      ∧ nvs_set_string demo_table key_sample_rate val_paul = (false, demo_table)
      ∧ nvs_get_uint32 (nvs_set_string demo_table key_sample_rate val_paul).2 key_sample_rate
          = some (get_uint_val (new_uint32_entry key_sample_rate 44100).data.value)
      ∧ nvs_set_uint32 demo_table key_name 7 = (false, demo_table) :=
  have h := C5_type_immutability demo_table demo_table key_sample_rate key_name
    (new_uint32_entry key_sample_rate 44100) (new_string_entry key_name val_paul)
    (by decide) (by decide) (by decide) (by decide)
  ⟨⟨by decide, by decide, by decide, by decide⟩, h.1 val_paul,
    h.2.1 val_paul (by decide) (by decide), h.2.2.1 7⟩

/-! # Tombstones -/

/-- C6. Tombstone semantics: whatever the table and the key `k`, once
`nvs_delete_entry k` has returned true, `nvs_get_uint32 k` and `nvs_get_string k`
return false, and `nvs_set_uint32 k v` and `nvs_set_string k s` return false for
every `v` and `s` and leave the table as it was: a set does not bring the
deleted key back. -/
theorem C6_tombstone (tbl : Table) (k : List Nat)
    (hdel : (nvs_delete_entry tbl k).1 = true) (v : Nat) (s buf : List Nat) (cap : Nat) :
    nvs_get_uint32 (nvs_delete_entry tbl k).2 k = none
      ∧ nvs_get_string (nvs_delete_entry tbl k).2 k buf cap = none
      ∧ nvs_set_uint32 (nvs_delete_entry tbl k).2 k v = (false, (nvs_delete_entry tbl k).2)
      ∧ nvs_set_string (nvs_delete_entry tbl k).2 k s = (false, (nvs_delete_entry tbl k).2) := by
  obtain ⟨e, _, hf⟩ := delete_entry_find k tbl hdel
  refine ⟨?_, ?_, ?_, ?_⟩
  · unfold nvs_get_uint32
    split
    · rfl
    · rw [get_uint32_loop_of_find, hf]
      simp
  · unfold nvs_get_string
    split
    · rfl
    · rw [get_string_loop_of_find, hf]
      simp
  · exact set_uint32_fail k v _ _ hf (Or.inl rfl)
  · exact set_string_fail k s _ _ hf (Or.inl rfl)

/-- C6 on the table of `main.c`, where "sample_rate" is deleted. -/
theorem C6_tombstone_witness :
    (nvs_delete_entry demo_table key_sample_rate).1 = true
      ∧ nvs_get_uint32 (nvs_delete_entry demo_table key_sample_rate).2 key_sample_rate = none
      ∧ nvs_get_string (nvs_delete_entry demo_table key_sample_rate).2 key_sample_rate
          (List.replicate 64 0) 64 = none
      ∧ nvs_set_uint32 (nvs_delete_entry demo_table key_sample_rate).2 key_sample_rate 48000
          = (false, (nvs_delete_entry demo_table key_sample_rate).2)
      ∧ nvs_set_string (nvs_delete_entry demo_table key_sample_rate).2 key_sample_rate val_paul
          = (false, (nvs_delete_entry demo_table key_sample_rate).2) :=
  ⟨by decide,
    C6_tombstone demo_table key_sample_rate (by decide) 48000 val_paul (List.replicate 64 0) 64⟩

/-! # Capacity -/

theorem set_uint32_loop_full (key : List Nat) (val : Nat) (tbl : Table)
    (hfull : ∀ slot ∈ tbl, slot ≠ none) (hno : find_entry key tbl = none) :
    nvs_set_uint32_loop key val tbl = (false, tbl) := by
  induction tbl with
  | nil => rfl
  | cons slot rest ih =>
    cases slot with
    | none => exact absurd rfl (hfull none (List.mem_cons_self _ _))
    | some e =>
      by_cases hm : strncmp_zero e.data.key key KEY_MAX_LEN = true
      · simp [find_entry, hm] at hno
      · simp only [find_entry, hm, Bool.false_eq_true, if_false] at hno
        simp [nvs_set_uint32_loop, hm,
          ih (fun slot hs => hfull slot (List.mem_cons_of_mem _ hs)) hno]

theorem set_string_loop_full (key str_val : List Nat) (tbl : Table)
    (hfull : ∀ slot ∈ tbl, slot ≠ none) (hno : find_entry key tbl = none) :
    nvs_set_string_loop key str_val tbl = (false, tbl) := by
  induction tbl with
  | nil => rfl
  | cons slot rest ih =>
    cases slot with
    | none => exact absurd rfl (hfull none (List.mem_cons_self _ _))
    | some e =>
      by_cases hm : strncmp_zero e.data.key key KEY_MAX_LEN = true
      · simp [find_entry, hm] at hno
      · simp only [find_entry, hm, Bool.false_eq_true, if_false] at hno
        simp [nvs_set_string_loop, hm,
          ih (fun slot hs => hfull slot (List.mem_cons_of_mem _ hs)) hno]

theorem set_uint32_loop_length (key : List Nat) (val : Nat) (tbl : Table) :
    (nvs_set_uint32_loop key val tbl).2.length = tbl.length := by
  induction tbl with
  | nil => rfl
  | cons slot rest ih =>
    cases slot with
    | none => simp [nvs_set_uint32_loop]
    | some e =>
      simp only [nvs_set_uint32_loop]
      split
      · split
        · rfl
        · split <;> rfl
      · simp [ih]

theorem set_string_loop_length (key str_val : List Nat) (tbl : Table) :
    (nvs_set_string_loop key str_val tbl).2.length = tbl.length := by
  induction tbl with
  | nil => rfl
  | cons slot rest ih =>
    cases slot with
    | none => simp [nvs_set_string_loop]
    | some e =>
      simp only [nvs_set_string_loop]
      split
      · split
        · rfl
        · split <;> rfl
      · simp [ih]

theorem delete_entry_length (key : List Nat) (tbl : Table) :
    (nvs_delete_entry tbl key).2.length = tbl.length := by
  induction tbl with
  | nil => rfl
  | cons slot rest ih =>
    cases slot with
    | none => simp [nvs_delete_entry]
    | some e =>
      simp only [nvs_delete_entry]
      split
      · rfl
      · simp [ih]

theorem apply_op_length (tbl : Table) (op : Op) : (apply_op tbl op).length = tbl.length := by
  cases op with
  | set_uint32 key val =>
    simp only [apply_op, nvs_set_uint32]
    split
    · rfl
    · exact set_uint32_loop_length key val tbl
  | set_string key str_val =>
    simp only [apply_op, nvs_set_string]
    split
    · rfl
    · exact set_string_loop_length key str_val tbl
  | delete_entry key => exact delete_entry_length key tbl

theorem run_ops_length (ops : List Op) (tbl : Table) : (run_ops tbl ops).length = tbl.length := by
  induction ops generalizing tbl with
  | nil => rfl
  | cons op rest ih =>
    simp only [run_ops, List.foldl_cons]
    exact (ih (apply_op tbl op)).trans (apply_op_length tbl op)

/-- C7. Capacity boundary: on a table whose 100 slots are all occupied and for
a key `k` of valid length for which the scan finds no record, `nvs_set_uint32`
and `nvs_set_string` return false and leave the table as it was; and from a
table of 100 slots no sequence of set and delete calls gives a table with
another number of slots, hence none with more than 100 records. -/
theorem C7_capacity (tbl : Table) (k s : List Nat) (v : Nat)
    (_hlen : tbl.length = MAX_NVS_RAM) (hfull : ∀ slot ∈ tbl, slot ≠ none)
    (hk : strlen k < KEY_MAX_LEN) (hno : find_entry k tbl = none)
    (tbl0 : Table) (h0 : tbl0.length = MAX_NVS_RAM) (ops : List Op) :
    nvs_set_uint32 tbl k v = (false, tbl)
      ∧ nvs_set_string tbl k s = (false, tbl)
      ∧ (run_ops tbl0 ops).length = MAX_NVS_RAM
      ∧ num_records (run_ops tbl0 ops) ≤ 100 := by
  have hk' : ¬ strlen k ≥ KEY_MAX_LEN := by omega
  have hl : (run_ops tbl0 ops).length = MAX_NVS_RAM := (run_ops_length ops tbl0).trans h0
  refine ⟨?_, ?_, hl, ?_⟩
  · simp only [nvs_set_uint32, hk', if_false]
    exact set_uint32_loop_full k v tbl hfull hno
  · simp only [nvs_set_string, hk', if_false]
    exact set_string_loop_full k s tbl hfull hno
  · have := List.length_filter_le Option.isSome (run_ops tbl0 ops)
    unfold num_records
    rw [hl] at this
    exact this

set_option maxRecDepth 100000 in
/-- C7 on the table filled by 100 integers and the key "name", and for the
calls of `main.c` from the empty table. -/
theorem C7_capacity_witness :
    (full_table.length = MAX_NVS_RAM ∧ (∀ slot ∈ full_table, slot ≠ none)
        ∧ strlen key_name < KEY_MAX_LEN ∧ find_entry key_name full_table = none
        ∧ empty_table.length = MAX_NVS_RAM)
      ∧ nvs_set_uint32 full_table key_name 7 = (false, full_table)
      ∧ nvs_set_string full_table key_name val_paul = (false, full_table)
      ∧ (run_ops empty_table demo_ops).length = MAX_NVS_RAM
      ∧ num_records (run_ops empty_table demo_ops) ≤ 100 :=
  ⟨⟨by decide, by decide, by decide, by decide, by decide⟩,
    C7_capacity full_table key_name val_paul 7 (by decide) (by decide) (by decide) (by decide)
      empty_table (by decide) demo_ops⟩

/-! # Key length -/

theorem set_uint32_loop_insert (key : List Nat) (val : Nat) (h : strlen key < KEY_MAX_LEN)
    (tbl : Table) (hfree : none ∈ tbl) (hno : find_entry key tbl = none) :
    (nvs_set_uint32_loop key val tbl).1 = true
      ∧ find_entry key (nvs_set_uint32_loop key val tbl).2
          = some (new_uint32_entry key val) := by
  induction tbl with
  | nil => simp at hfree
  | cons slot rest ih =>
    cases slot with
    | none =>
      have hm := new_key_match key h
      simp [nvs_set_uint32_loop, find_entry, new_uint32_entry, hm]
    | some e =>
      by_cases hm : strncmp_zero e.data.key key KEY_MAX_LEN = true
      · simp [find_entry, hm] at hno
      · simp only [find_entry, hm, Bool.false_eq_true, if_false] at hno
        have hfree1 : none ∈ rest := by simpa using hfree
        obtain ⟨h1, h2⟩ := ih hfree1 hno
        simp [nvs_set_uint32_loop, find_entry, hm, h1, h2]

theorem set_string_loop_insert (key str_val : List Nat) (h : strlen key < KEY_MAX_LEN)
    (tbl : Table) (hfree : none ∈ tbl) (hno : find_entry key tbl = none) :
    (nvs_set_string_loop key str_val tbl).1 = true
      ∧ find_entry key (nvs_set_string_loop key str_val tbl).2
          = some (new_string_entry key str_val) := by
  induction tbl with
  | nil => simp at hfree
  | cons slot rest ih =>
    cases slot with
    | none =>
      have hm := new_key_match key h
      simp [nvs_set_string_loop, find_entry, new_string_entry, hm]
    | some e =>
      by_cases hm : strncmp_zero e.data.key key KEY_MAX_LEN = true
      · simp [find_entry, hm] at hno
      · simp only [find_entry, hm, Bool.false_eq_true, if_false] at hno
        have hfree1 : none ∈ rest := by simpa using hfree
        obtain ⟨h1, h2⟩ := ih hfree1 hno
        simp [nvs_set_string_loop, find_entry, hm, h1, h2]

/-- With a key of 31 characters `strncpy(..., KEY_MAX_LEN - 1)` copies the whole
key, and the byte after it is the 0 that `calloc` left. -/
theorem stored_key_full (key : List Nat) (h : strlen key = 31) :
    strncpy calloc_entry.data.key key (KEY_MAX_LEN - 1)
      = key.takeWhile (fun b => b != 0) ++ [0] := by
  unfold strlen at h
  unfold strncpy
  have h31 : KEY_MAX_LEN - 1 = 31 := rfl
  rw [h31, List.take_of_length_le (le_of_eq h), h]
  have hd : List.drop 31 calloc_entry.data.key = [0] := by decide
  rw [hd]
  simp

/-- C8. Key-length boundary: with a key `k` of exactly 31 characters, on a table
that has a free slot and where the scan finds no record for `k`,
`nvs_set_uint32` and `nvs_set_string` return true, the entry created holds the
31 characters of the key and the terminator, and `nvs_get_uint32`, respectively
`nvs_get_string`, called with the same key finds it; with a key `k2` of 32
characters or more the two setters and the two getters return false and the
table is as it was. -/
theorem C8_key_length (tbl : Table) (k k2 s buf : List Nat) (v cap : Nat)
    (hk : strlen k = 31) (hfree : none ∈ tbl) (hno : find_entry k tbl = none)
    (hk2 : strlen k2 ≥ 32) :
    ((nvs_set_uint32 tbl k v).1 = true
        ∧ find_entry k (nvs_set_uint32 tbl k v).2 = some (new_uint32_entry k v)
        ∧ (new_uint32_entry k v).data.key = k.takeWhile (fun b => b != 0) ++ [0]
        ∧ nvs_get_uint32 (nvs_set_uint32 tbl k v).2 k = some (v % 2 ^ 32))
      ∧ ((nvs_set_string tbl k s).1 = true
        ∧ find_entry k (nvs_set_string tbl k s).2 = some (new_string_entry k s)
        ∧ (new_string_entry k s).data.key = k.takeWhile (fun b => b != 0) ++ [0]
        ∧ nvs_get_string (nvs_set_string tbl k s).2 k buf cap
            = some (strncpy buf (new_string_entry k s).data.value cap))
      ∧ nvs_set_uint32 tbl k2 v = (false, tbl)
      ∧ nvs_set_string tbl k2 s = (false, tbl)
      ∧ nvs_get_uint32 tbl k2 = none
      ∧ nvs_get_string tbl k2 buf cap = none := by
  have hlt : strlen k < KEY_MAX_LEN := by rw [hk]; decide
  have hk' : ¬ strlen k ≥ KEY_MAX_LEN := by omega
  have hk2' : strlen k2 ≥ KEY_MAX_LEN := hk2
  obtain ⟨hu1, hu2⟩ := set_uint32_loop_insert k v hlt tbl hfree hno
  obtain ⟨hs1, hs2⟩ := set_string_loop_insert k s hlt tbl hfree hno
  have hcd : calloc_entry.deleted = false := rfl
  refine ⟨⟨?_, ?_, ?_, ?_⟩, ⟨?_, ?_, ?_, ?_⟩, ?_, ?_, ?_, ?_⟩
  · simpa [nvs_set_uint32, hk'] using hu1
  · simpa [nvs_set_uint32, hk'] using hu2
  · exact stored_key_full k hk
  · simp only [nvs_set_uint32, nvs_get_uint32, hk', if_false]
    rw [get_uint32_loop_of_find, hu2]
    simp [new_uint32_entry, get_set_uint_val, hcd]
  · simpa [nvs_set_string, hk'] using hs1
  · simpa [nvs_set_string, hk'] using hs2
  · exact stored_key_full k hk
  · simp only [nvs_set_string, nvs_get_string, hk', if_false]
    rw [get_string_loop_of_find, hs2]
    simp [new_string_entry, hcd]
  · simp [nvs_set_uint32, hk2']
  · simp [nvs_set_string, hk2']
  · simp [nvs_get_uint32, hk2']
  · simp [nvs_get_string, hk2']

/-- C8 on the table of `main.c` with a key of 31 and a key of 32 characters. -/
theorem C8_key_length_witness :
    (strlen key31 = 31 ∧ none ∈ demo_table ∧ find_entry key31 demo_table = none
        ∧ strlen key32 ≥ 32)
      ∧ (nvs_set_uint32 demo_table key31 7).1 = true
      ∧ nvs_get_uint32 (nvs_set_uint32 demo_table key31 7).2 key31 = some (7 % 2 ^ 32)
      ∧ nvs_set_uint32 demo_table key32 7 = (false, demo_table) :=
  have h := C8_key_length demo_table key31 key32 val_paul (List.replicate 64 0) 7 64
    (by decide) (by decide) (by decide) (by decide)
  ⟨⟨by decide, by decide, by decide, by decide⟩, h.1.1, h.1.2.2.2, h.2.2.1⟩

/-! # Compactness -/

theorem getD_of_all_none (rest : Table) (h : rest.all Option.isNone = true) (j : Nat) :
    rest.getD j none = none := by
  induction rest generalizing j with
  | nil => simp
  | cons x xs ih =>
    simp only [List.all_cons, Bool.and_eq_true] at h
    cases j with
    | zero =>
      cases x with
      | none => simp
      | some e => simp at h
    | succ m => simpa using ih h.2 m

theorem all_none_of_getD (rest : Table) (h : ∀ j, rest.getD j none = none) :
    rest.all Option.isNone = true := by
  induction rest with
  | nil => rfl
  | cons x xs ih =>
    simp only [List.all_cons, Bool.and_eq_true]
    constructor
    · have := h 0
      simp only [List.getD_cons_zero] at this
      rw [this]
      rfl
    · apply ih
      intro j
      have := h (j + 1)
      simpa using this

theorem compact_iff (tbl : Table) : compactb tbl = true ↔ compact tbl := by
  induction tbl with
  | nil =>
    simp only [compactb, true_iff]
    intro i j _ _
    simp
  | cons slot rest ih =>
    cases slot with
    | none =>
      simp only [compactb]
      constructor
      · intro h i j hij _
        cases j with
        | zero => omega
        | succ m => simpa using getD_of_all_none rest h m
      · intro h
        apply all_none_of_getD
        intro j
        have := h 0 (j + 1) (by omega) (by simp)
        simpa using this
    | some e =>
      simp only [compactb]
      rw [ih]
      constructor
      · intro h i j hij hi
        cases i with
        | zero => simp at hi
        | succ a =>
          cases j with
          | zero => omega
          | succ b =>
            have := h a b (by omega) (by simpa using hi)
            simpa using this
      · intro h i j hij hi
        have := h (i + 1) (j + 1) (by omega) (by simpa using hi)
        simpa using this

theorem compactb_of_all_none (rest : Table) (h : rest.all Option.isNone = true) :
    compactb rest = true := by
  cases rest with
  | nil => rfl
  | cons x xs =>
    simp only [List.all_cons, Bool.and_eq_true] at h
    cases x with
    | none => exact h.2
    | some e => simp at h

theorem set_uint32_loop_compactb (key : List Nat) (val : Nat) (tbl : Table)
    (h : compactb tbl = true) : compactb (nvs_set_uint32_loop key val tbl).2 = true := by
  induction tbl with
  | nil => rfl
  | cons slot rest ih =>
    cases slot with
    | none => exact compactb_of_all_none rest h
    | some e =>
      simp only [nvs_set_uint32_loop]
      split
      · split
        · exact h
        · split <;> exact h
      · exact ih h

theorem set_string_loop_compactb (key str_val : List Nat) (tbl : Table)
    (h : compactb tbl = true) : compactb (nvs_set_string_loop key str_val tbl).2 = true := by
  induction tbl with
  | nil => rfl
  | cons slot rest ih =>
    cases slot with
    | none => exact compactb_of_all_none rest h
    | some e =>
      simp only [nvs_set_string_loop]
      split
      · split
        · exact h
        · split <;> exact h
      · exact ih h

theorem delete_entry_compactb (key : List Nat) (tbl : Table)
    (h : compactb tbl = true) : compactb (nvs_delete_entry tbl key).2 = true := by
  induction tbl with
  | nil => rfl
  | cons slot rest ih =>
    cases slot with
    | none => exact h
    | some e =>
      simp only [nvs_delete_entry]
      split
      · exact h
      · exact ih h

theorem apply_op_compactb (tbl : Table) (op : Op) (h : compactb tbl = true) :
    compactb (apply_op tbl op) = true := by
  cases op with
  | set_uint32 key val =>
    simp only [apply_op, nvs_set_uint32]
    split
    · exact h
    · exact set_uint32_loop_compactb key val tbl h
  | set_string key str_val =>
    simp only [apply_op, nvs_set_string]
    split
    · exact h
    · exact set_string_loop_compactb key str_val tbl h
  | delete_entry key => exact delete_entry_compactb key tbl h

theorem run_ops_compactb (ops : List Op) (tbl : Table) (h : compactb tbl = true) :
    compactb (run_ops tbl ops) = true := by
  induction ops generalizing tbl with
  | nil => exact h
  | cons op rest ih =>
    simp only [run_ops, List.foldl_cons]
    exact ih (apply_op tbl op) (apply_op_compactb tbl op h)

/-- C9. Compactness invariant: from a compact table, every sequence of
`nvs_set_uint32`, `nvs_set_string` and `nvs_delete_entry` calls, whatever they
return, leaves a compact table: no empty slot precedes an occupied one. -/
theorem C9_compactness (tbl : Table) (ops : List Op) (h : compact tbl) :
    compact (run_ops tbl ops) :=
  (compact_iff _).1 (run_ops_compactb ops tbl ((compact_iff tbl).2 h))

/-- C9 for the calls of `main.c` from the empty table. -/
theorem C9_compactness_witness :
    compact empty_table ∧ compact (run_ops empty_table demo_ops) :=
  ⟨(compact_iff empty_table).1 (by decide),
    C9_compactness empty_table demo_ops ((compact_iff empty_table).1 (by decide))⟩

/-! # Loading the file -/

theorem cstrn_strncpy_same (dst src : List Nat) (n : Nat) :
    cstrn n (strncpy dst src n) = cstrn n src := by
  have hlen : ((src.takeWhile (fun b => b != 0)).take n).length ≤ n := by
    simp [List.length_take]
  have hne : ∀ b ∈ (src.takeWhile (fun b => b != 0)).take n, b ≠ 0 := fun b hb =>
    takeWhile_nz_ne src b (List.mem_of_mem_take hb)
  have hl2 : ((src.takeWhile (fun b => b != 0)).take n
      ++ List.replicate (n - ((src.takeWhile (fun b => b != 0)).take n).length) 0).length = n := by
    simp only [List.length_append, List.length_replicate]
    omega
  have htake : (strncpy dst src n).take n = (src.takeWhile (fun b => b != 0)).take n
      ++ List.replicate (n - ((src.takeWhile (fun b => b != 0)).take n).length) 0 := by
    unfold strncpy
    rw [List.take_append_of_le_length (le_of_eq hl2.symm), List.take_of_length_le (le_of_eq hl2)]
  unfold cstrn
  rw [htake, takeWhile_append_stop _ _ hne, takeWhile_take_comm]
  cases n - ((src.takeWhile (fun b => b != 0)).take n).length with
  | zero => rfl
  | succ k => rfl

theorem get_uint_val_lt (value : List Nat) : get_uint_val value < 2 ^ 32 := by
  unfold get_uint_val
  omega

theorem init_entry_loaded (junk r : NVS_Entry) : loaded_from (init_entry junk r) r := by
  refine ⟨rfl, cstrn_strncpy_same _ _ _, ?_, ?_, rfl, rfl⟩
  · intro ht
    simp only [init_entry, ht, if_true]
    rw [get_set_uint_val, Nat.mod_eq_of_lt (get_uint_val_lt _)]
  · intro ht
    have hne : ¬ (TYPE_STRING = TYPE_UINT32) := by decide
    simp only [init_entry, ht, hne, if_false, if_true]
    exact cstrn_strncpy_same _ _ _

theorem set_at_length (pre : Table) (x y : Option NVS_Entry) (rest : Table) :
    (pre ++ x :: rest).set pre.length y = pre ++ y :: rest := by
  induction pre with
  | nil => rfl
  | cons p ps ih => simp [List.set, ih]

/-- The loop of `nvs_init` on records whose kind is known whenever their
checksum is right, started on a table whose occupied slots are `pre`. -/
theorem init_loop_known (malloc : Nat → NVS_Entry) (file : List NVS_Entry) :
    ∀ (n : Nat) (pre : Table),
      (∀ r ∈ file, crc_valid r = true →
        r.data.type = TYPE_UINT32 ∨ r.data.type = TYPE_STRING) →
      pre.length + (file.filter crc_valid).length ≤ MAX_NVS_RAM →
      ∃ es : List NVS_Entry,
        nvs_init_loop false malloc file n
            (pre ++ List.replicate (MAX_NVS_RAM - pre.length) none) pre.length
          = some (pre ++ es.map some
              ++ List.replicate (MAX_NVS_RAM - (pre.length + es.length)) none)
        ∧ List.Forall₂ (fun e r => ∃ junk, e = init_entry junk r) es
            (file.filter crc_valid) := by
  induction file with
  | nil =>
    intro n pre _ _
    exact ⟨[], by simp [nvs_init_loop], List.Forall₂.nil⟩
  | cons r file ih =>
    intro n pre hk hcap
    by_cases hv : crc_valid r = true
    · have hv' : entry_crc r = r.crc32 := by simpa [crc_valid] using hv
      have hkr := hk r (List.mem_cons_self _ _) hv
      simp only [List.filter_cons, hv, if_true, List.length_cons] at hcap ⊢
      have hlt : ¬ pre.length ≥ MAX_NVS_RAM := by omega
      obtain ⟨k, hkk⟩ : ∃ k, MAX_NVS_RAM - pre.length = k + 1 :=
        ⟨MAX_NVS_RAM - pre.length - 1, by omega⟩
      obtain ⟨es, h1, h2⟩ := ih (n + 1) (pre ++ [some (init_entry (malloc n) r)])
        (fun r1 hr1 => hk r1 (List.mem_cons_of_mem _ hr1))
        (by simp only [List.length_append, List.length_singleton]; omega)
      refine ⟨init_entry (malloc n) r :: es, ?_, List.Forall₂.cons ⟨_, rfl⟩ h2⟩
      have hset : (pre ++ List.replicate (MAX_NVS_RAM - pre.length) none).set pre.length
            (some (init_entry (malloc n) r))
          = (pre ++ [some (init_entry (malloc n) r)])
              ++ List.replicate (MAX_NVS_RAM - (pre ++ [some (init_entry (malloc n) r)]).length)
                  none := by
        have hk1 : MAX_NVS_RAM - (pre ++ [some (init_entry (malloc n) r)]).length = k := by
          simp only [List.length_append, List.length_singleton]
          omega
        rw [hkk, List.replicate_succ, set_at_length, hk1]
        simp
      have hlen1 : (pre ++ [some (init_entry (malloc n) r)]).length = pre.length + 1 := by
        simp
      simp only [nvs_init_loop, hv', bne_self_eq_false, Bool.false_eq_true, if_false, hlt, hkr,
        if_true, hset]
      rw [hlen1] at h1
      rw [hlen1, h1]
      simp [Nat.add_assoc, Nat.add_comm 1]
    · have hv' : ¬ entry_crc r = r.crc32 := by simpa [crc_valid] using hv
      simp only [List.filter_cons, hv, Bool.false_eq_true, if_false] at hcap ⊢
      obtain ⟨es, h1, h2⟩ := ih (n + 1) pre
        (fun r1 hr1 => hk r1 (List.mem_cons_of_mem _ hr1)) hcap
      refine ⟨es, ?_, h2⟩
      simp [nvs_init_loop, hv', h1]

theorem forall₂_loaded (es rs : List NVS_Entry)
    (h : List.Forall₂ (fun e r => ∃ junk, e = init_entry junk r) es rs) :
    List.Forall₂ loaded_from es rs := by
  induction h with
  | nil => exact List.Forall₂.nil
  | cons hd _ ih =>
    obtain ⟨junk, rfl⟩ := hd
    exact List.Forall₂.cons (init_entry_loaded junk _) ih

/-- C4. Corruption isolation: for a file of at most 100 records whose kind tag
is `TYPE_UINT32` or `TYPE_STRING`, `nvs_init(false)` returns true and the table
it leaves holds, from slot 0 on and in file order, one entry for each record
whose stored checksum equals `compute_crc32` of its payload, with the same
kind, key and value and with `deleted` and `modified` false; the other slots are
empty, so a record whose checksum differs occupies no slot. -/
theorem C4_corruption_isolation (malloc : Nat → NVS_Entry) (file : List NVS_Entry)
    (hlen : file.length ≤ 100)
    (hkind : ∀ r ∈ file, r.data.type = TYPE_UINT32 ∨ r.data.type = TYPE_STRING) :
    ∃ es : List NVS_Entry,
      nvs_init false malloc (some file)
          = some (true, es.map some ++ List.replicate (MAX_NVS_RAM - es.length) none)
        ∧ List.Forall₂ loaded_from es (file.filter crc_valid) := by
  have hcap : ([] : Table).length + (file.filter crc_valid).length ≤ MAX_NVS_RAM := by
    have := List.length_filter_le crc_valid file
    simp only [List.length_nil, MAX_NVS_RAM]
    omega
  obtain ⟨es, h1, h2⟩ := init_loop_known malloc file 0 [] (fun r hr _ => hkind r hr) hcap
  refine ⟨es, ?_, forall₂_loaded es _ h2⟩
  simp only [List.length_nil, List.nil_append, Nat.sub_zero, Nat.zero_add] at h1
  simp only [nvs_init, empty_table, h1, Option.map_some']

set_option maxRecDepth 100000 in
/-- C4 on a file of three records, the second with an altered checksum. -/
theorem C4_corruption_isolation_witness :
    (demo_file.length ≤ 100
        ∧ ∀ r ∈ demo_file, r.data.type = TYPE_UINT32 ∨ r.data.type = TYPE_STRING)
      ∧ ∃ es : List NVS_Entry,
          nvs_init false (fun _ => calloc_entry) (some demo_file)
              = some (true, es.map some ++ List.replicate (MAX_NVS_RAM - es.length) none)
            ∧ List.Forall₂ loaded_from es (demo_file.filter crc_valid) :=
  ⟨⟨by decide, by decide⟩,
    C4_corruption_isolation (fun _ => calloc_entry) demo_file (by decide) (by decide)⟩

/-! # Writing the file -/

/-- The file `nvs_commit` leaves when every page write succeeds: the pending
record of the buffer, if any, and the records to write, two per page; the last
page is flushed only when the loop meets an empty slot. -/
theorem commit_loop_pages (fwrite_ok : Nat → Bool) (hok : ∀ p, fwrite_ok p = true)
    (tbl : Table) :
    ∀ (buf : NVS_Entry × NVS_Entry) (counter : Nat) (commited : Bool) (file : List NVS_Entry),
      counter = 0 ∨ counter = 1 →
      (nvs_commit_loop fwrite_ok tbl buf counter commited file).2.1
          = file ++ pages buf.2 (tbl.any Option.isNone)
              ((if counter = 0 then [] else [buf.1]) ++ live_records tbl)
        ∧ (nvs_commit_loop fwrite_ok tbl buf counter commited file).1
          = (commited || !(pages buf.2 (tbl.any Option.isNone)
              ((if counter = 0 then [] else [buf.1]) ++ live_records tbl)).isEmpty) := by
  induction tbl with
  | nil =>
    intro buf counter commited file hc
    rcases hc with hc | hc <;> subst hc <;> simp [nvs_commit_loop, live_records, pages]
  | cons slot rest ih =>
    intro buf counter commited file hc
    cases slot with
    | none =>
      rcases hc with hc | hc <;> subst hc <;>
        simp [nvs_commit_loop, live_records, pages, write_nvs_buffer_to_file, hok]
    | some e =>
      by_cases hd : e.deleted = true
      · have := ih buf counter commited file hc
        simp only [nvs_commit_loop, hd, if_true, live_records, List.any_cons, Option.isNone_some,
          Bool.false_or]
        exact this
      · rcases hc with hc | hc
        · subst hc
          have := ih (with_crc e, buf.2) 1 commited file (Or.inr rfl)
          simp only [nvs_commit_loop, hd, Bool.false_eq_true, if_false, live_records,
            List.any_cons, Option.isNone_some, Bool.false_or, if_true, Nat.zero_add]
          simpa using this
        · subst hc
          have := ih (calloc_entry, calloc_entry) 0 true (file ++ [buf.1, with_crc e])
            (Or.inl rfl)
          simp only [nvs_commit_loop, hd, Bool.false_eq_true, if_false, live_records,
            List.any_cons, Option.isNone_some, Bool.false_or, write_nvs_buffer_to_file, hok,
            if_true]
          simp [pages, this]

theorem any_isNone_false_of_full (tbl : Table) (hfull : ∀ slot ∈ tbl, slot ≠ none) :
    tbl.any Option.isNone = false := by
  rw [Bool.eq_false_iff]
  intro h
  rw [List.any_eq_true] at h
  obtain ⟨slot, hm, hs⟩ := h
  cases slot with
  | none => exact hfull none hm rfl
  | some e => simp at hs

theorem pages_false_length_aux (l : List NVS_Entry) :
    (∀ filler, (pages filler false l).length = 2 * (l.length / 2))
      ∧ ∀ filler a, (pages filler false (a :: l)).length = 2 * ((a :: l).length / 2) := by
  induction l with
  | nil => exact ⟨fun _ => rfl, fun _ _ => by simp [pages]⟩
  | cons b rest ih =>
    refine ⟨fun filler => ih.2 filler b, fun filler a => ?_⟩
    simp only [pages, List.length_cons, ih.1 calloc_entry]
    omega

theorem pages_false_length (filler : NVS_Entry) (l : List NVS_Entry) :
    (pages filler false l).length = 2 * (l.length / 2) :=
  (pages_false_length_aux l).1 filler

/-- On a table without an empty slot the loop of `nvs_commit` ends without the
final flush: when every write succeeds the file holds the records to write up
to the last full page, so with an odd number of them the last one is missing. -/
theorem commit_full_table (fwrite_ok : Nat → Bool) (hok : ∀ p, fwrite_ok p = true)
    (tbl : Table) (hfull : ∀ slot ∈ tbl, slot ≠ none) (buf : NVS_Entry × NVS_Entry)
    (old_file : List NVS_Entry) :
    (nvs_commit tbl buf true fwrite_ok old_file).2.1 = pages buf.2 false (live_records tbl)
      ∧ (nvs_commit tbl buf true fwrite_ok old_file).2.1.length
          = 2 * ((live_records tbl).length / 2) := by
  have h := (commit_loop_pages fwrite_ok hok tbl buf 0 false [] (Or.inl rfl)).1
  rw [any_isNone_false_of_full tbl hfull] at h
  simp only [if_true, List.nil_append] at h
  have h2 : (nvs_commit tbl buf true fwrite_ok old_file).2.1
      = pages buf.2 false (live_records tbl) := by
    simp only [nvs_commit, if_true]
    exact h
  exact ⟨h2, by rw [h2, pages_false_length]⟩

/-- On a table with an empty slot, when every write succeeds, the file holds the
records to write, two per page, the last page being completed by what the second
slot of the buffer holds. -/
theorem commit_table_with_gap (fwrite_ok : Nat → Bool) (hok : ∀ p, fwrite_ok p = true)
    (tbl : Table) (hgap : none ∈ tbl) (buf : NVS_Entry × NVS_Entry)
    (old_file : List NVS_Entry) :
    (nvs_commit tbl buf true fwrite_ok old_file).2.1 = pages buf.2 true (live_records tbl) := by
  have h := (commit_loop_pages fwrite_ok hok tbl buf 0 false [] (Or.inl rfl)).1
  have hany : tbl.any Option.isNone = true := by
    rw [List.any_eq_true]
    exact ⟨none, hgap, rfl⟩
  rw [hany] at h
  simp only [if_true, List.nil_append] at h
  simp only [nvs_commit, if_true]
  exact h

set_option maxRecDepth 1000000 in
/-- C10 fails on a full table: `full_table_one_deleted` is compact, its 100 slots
are occupied and 99 of its records are not deleted, the last of them under the
key "J9"; with every write succeeding `nvs_commit` returns true and leaves a file
of 98 records, none of which has the key "J9": the last record stays in the
write buffer and is never written. -/
theorem C10_full_table_last_record_unwritten :
    compact full_table_one_deleted
      ∧ full_table_one_deleted.length = MAX_NVS_RAM
      ∧ (∀ slot ∈ full_table_one_deleted, slot ≠ none)
      ∧ (live_records full_table_one_deleted).length = 99
      ∧ full_table_one_deleted.getLast? = some (some (new_uint32_entry key_last 99))
      ∧ (new_uint32_entry key_last 99).deleted = false
      ∧ (nvs_commit full_table_one_deleted (calloc_entry, calloc_entry) true
            (fun _ => true) []).1 = true
      ∧ (nvs_commit full_table_one_deleted (calloc_entry, calloc_entry) true
            (fun _ => true) []).2.1.length = 98
      ∧ ∀ r ∈ (nvs_commit full_table_one_deleted (calloc_entry, calloc_entry) true
            (fun _ => true) []).2.1, strncmp_zero r.data.key key_last KEY_MAX_LEN = false := by
  refine ⟨(compact_iff _).1 (by decide), by decide, by decide, by decide, by decide, by decide,
    by decide, by decide, by decide⟩

/-! # Delete, commit, reload -/

/-- Every record of the file `nvs_commit` leaves was in the file before the
loop, or is the pending record of the buffer, or what the second slot of the
buffer held, or the zeroed buffer, or an entry of the table that is not deleted,
with its checksum recomputed. -/
theorem commit_loop_mem (fwrite_ok : Nat → Bool) (tbl : Table) :
    ∀ (buf : NVS_Entry × NVS_Entry) (counter : Nat) (commited : Bool) (file : List NVS_Entry),
      counter = 0 ∨ counter = 1 →
      ∀ r ∈ (nvs_commit_loop fwrite_ok tbl buf counter commited file).2.1,
        r ∈ file ∨ (counter = 1 ∧ r = buf.1) ∨ r = buf.2 ∨ r = calloc_entry
          ∨ ∃ e, some e ∈ tbl ∧ e.deleted = false ∧ r = with_crc e := by
  induction tbl with
  | nil =>
    intro buf counter commited file _ r hr
    exact Or.inl (by simpa [nvs_commit_loop] using hr)
  | cons slot rest ih =>
    intro buf counter commited file hc r hr
    cases slot with
    | none =>
      rcases hc with hc | hc
      · subst hc
        exact Or.inl (by simpa [nvs_commit_loop] using hr)
      · subst hc
        cases hw : fwrite_ok (file.length / 2) with
        | false =>
          simp only [nvs_commit_loop, write_nvs_buffer_to_file, hw] at hr
          exact Or.inl (by simpa using hr)
        | true =>
          simp only [nvs_commit_loop, write_nvs_buffer_to_file, hw] at hr
          simp only [Nat.lt_one_iff, gt_iff_lt, Nat.zero_lt_one, if_true, List.mem_append,
            List.mem_cons, List.mem_singleton, List.not_mem_nil, or_false] at hr
          rcases hr with h | h | h
          · exact Or.inl h
          · exact Or.inr (Or.inl ⟨rfl, h⟩)
          · exact Or.inr (Or.inr (Or.inl h))
    | some e =>
      by_cases hd : e.deleted = true
      · simp only [nvs_commit_loop, hd, if_true] at hr
        rcases ih buf counter commited file hc r hr with h | h | h | h | ⟨e1, h1, h2, h3⟩
        · exact Or.inl h
        · exact Or.inr (Or.inl h)
        · exact Or.inr (Or.inr (Or.inl h))
        · exact Or.inr (Or.inr (Or.inr (Or.inl h)))
        · exact Or.inr (Or.inr (Or.inr (Or.inr ⟨e1, List.mem_cons_of_mem _ h1, h2, h3⟩)))
      · have hd' : e.deleted = false := by simpa using hd
        have hme : ∃ e1, some e1 ∈ some e :: rest ∧ e1.deleted = false ∧ with_crc e = with_crc e1 :=
          ⟨e, List.mem_cons_self _ _, hd', rfl⟩
        rcases hc with hc | hc
        · subst hc
          simp only [nvs_commit_loop, hd, Bool.false_eq_true, if_false, if_true,
            Nat.zero_add] at hr
          have hr' : r ∈ (nvs_commit_loop fwrite_ok rest (with_crc e, buf.2) 1 commited file).2.1 := by
            simpa using hr
          rcases ih (with_crc e, buf.2) 1 commited file (Or.inr rfl) r hr'
            with h | h | h | h | ⟨e1, h1, h2, h3⟩
          · exact Or.inl h
          · obtain ⟨e1, h1, h2, h3⟩ := hme
            exact Or.inr (Or.inr (Or.inr (Or.inr ⟨e1, h1, h2, h.2.trans h3⟩)))
          · exact Or.inr (Or.inr (Or.inl h))
          · exact Or.inr (Or.inr (Or.inr (Or.inl h)))
          · exact Or.inr (Or.inr (Or.inr (Or.inr ⟨e1, List.mem_cons_of_mem _ h1, h2, h3⟩)))
        · subst hc
          cases hw : fwrite_ok (file.length / 2) with
          | false =>
            simp only [nvs_commit_loop, hd, write_nvs_buffer_to_file, hw] at hr
            exact Or.inl (by simpa using hr)
          | true =>
            simp only [nvs_commit_loop, hd, write_nvs_buffer_to_file, hw] at hr
            have hr' : r ∈ (nvs_commit_loop fwrite_ok rest (calloc_entry, calloc_entry) 0 true
                (file ++ [buf.1, with_crc e])).2.1 := by
              simpa using hr
            rcases ih (calloc_entry, calloc_entry) 0 true (file ++ [buf.1, with_crc e])
              (Or.inl rfl) r hr' with h | h | h | h | ⟨e1, h1, h2, h3⟩
            · simp only [List.mem_append, List.mem_cons, List.mem_singleton, List.not_mem_nil,
                or_false] at h
              rcases h with h | h | h
              · exact Or.inl h
              · exact Or.inr (Or.inl ⟨rfl, h⟩)
              · obtain ⟨e1, h1, h2, h3⟩ := hme
                exact Or.inr (Or.inr (Or.inr (Or.inr ⟨e1, h1, h2, h.trans h3⟩)))
            · exact absurd h.1 (by decide)
            · exact Or.inr (Or.inr (Or.inr (Or.inl h)))
            · exact Or.inr (Or.inr (Or.inr (Or.inl h)))
            · exact Or.inr (Or.inr (Or.inr (Or.inr ⟨e1, List.mem_cons_of_mem _ h1, h2, h3⟩)))

/-- Every entry of the table `nvs_init(false)` leaves was in the table before
the loop or was built from a record of the file whose checksum is right. -/
theorem init_loop_mem (malloc : Nat → NVS_Entry) (file : List NVS_Entry) :
    ∀ (n : Nat) (tbl : Table) (idx : Nat) (res : Table),
      nvs_init_loop false malloc file n tbl idx = some res →
      ∀ e, some e ∈ res →
        some e ∈ tbl ∨ ∃ r ∈ file, crc_valid r = true ∧ ∃ junk, e = init_entry junk r := by
  induction file with
  | nil =>
    intro n tbl idx res h e he
    simp only [nvs_init_loop, Option.some.injEq] at h
    subst h
    exact Or.inl he
  | cons r file ih =>
    intro n tbl idx res h e he
    have hstep : ∀ idx2, nvs_init_loop false malloc file (n + 1)
        (tbl.set idx (some (init_entry (malloc n) r))) idx2 = some res → crc_valid r = true →
        some e ∈ tbl ∨ ∃ r1 ∈ r :: file, crc_valid r1 = true ∧ ∃ junk, e = init_entry junk r1 := by
      intro idx2 h2 hv
      rcases ih (n + 1) _ idx2 res h2 e he with h3 | ⟨r1, hr1, hv1, hj⟩
      · rcases List.mem_or_eq_of_mem_set h3 with h4 | h4
        · exact Or.inl h4
        · exact Or.inr ⟨r, List.mem_cons_self _ _, hv, malloc n, by simpa using h4⟩
      · exact Or.inr ⟨r1, List.mem_cons_of_mem _ hr1, hv1, hj⟩
    by_cases hv : crc_valid r = true
    · have hv' : entry_crc r = r.crc32 := by simpa [crc_valid] using hv
      simp only [nvs_init_loop, hv', bne_self_eq_false, Bool.false_eq_true, if_false] at h
      by_cases hidx : idx ≥ MAX_NVS_RAM
      · simp [hidx] at h
      · simp only [hidx, if_false] at h
        split at h
        · exact hstep _ h hv
        · exact hstep _ h hv
    · have hv' : ¬ entry_crc r = r.crc32 := by simpa [crc_valid] using hv
      simp only [nvs_init_loop, Bool.false_eq_true, if_false, bne_iff_ne, ne_eq, hv',
        not_false_eq_true, if_true] at h
      rcases ih (n + 1) tbl idx res h e he with h3 | ⟨r1, hr1, hv1, hj⟩
      · exact Or.inl h3
      · exact Or.inr ⟨r1, List.mem_cons_of_mem _ hr1, hv1, hj⟩

theorem strncmp_zero_trans (a b c : List Nat) (n : Nat) (h1 : strncmp_zero a c n = true)
    (h2 : strncmp_zero b c n = true) : strncmp_zero a b n = true := by
  rw [strncmp_zero_iff] at h1 h2 ⊢
  rw [h1, h2]

theorem init_entry_key_match (junk r : NVS_Entry) (key : List Nat) :
    strncmp_zero (init_entry junk r).data.key key KEY_MAX_LEN
      = strncmp_zero r.data.key key KEY_MAX_LEN := by
  rw [Bool.eq_iff_iff, strncmp_zero_iff, strncmp_zero_iff]
  have : cstrn KEY_MAX_LEN (init_entry junk r).data.key = cstrn KEY_MAX_LEN r.data.key :=
    cstrn_strncpy_same _ _ _
  rw [this]

/-- After a successful delete in a table with unique keys no entry that is not
deleted has a key that compares equal to the deleted key. -/
theorem delete_entry_unique (key : List Nat) (tbl : Table) (hu : keys_unique tbl = true)
    (hd : (nvs_delete_entry tbl key).1 = true) :
    ∀ e, some e ∈ (nvs_delete_entry tbl key).2 → e.deleted = false →
      strncmp_zero e.data.key key KEY_MAX_LEN = false := by
  induction tbl with
  | nil => simp [nvs_delete_entry] at hd
  | cons slot rest ih =>
    cases slot with
    | none => simp [nvs_delete_entry] at hd
    | some e1 =>
      simp only [keys_unique, Bool.and_eq_true, List.all_eq_true] at hu
      intro e he hlive
      by_cases hm : strncmp_zero e1.data.key key KEY_MAX_LEN = true
      · simp only [nvs_delete_entry, hm, if_true, List.mem_cons, Option.some.injEq] at he
        rcases he with he | he
        · subst he
          simp at hlive
        · have hdist := hu.1 (some e) he
          simp only [distinct_keys, Bool.not_eq_true'] at hdist
          rw [Bool.eq_false_iff]
          intro hm2
          have := strncmp_zero_trans _ _ _ _ hm hm2
          rw [hdist] at this
          exact Bool.false_ne_true this
      · simp only [nvs_delete_entry, hm, Bool.false_eq_true, if_false] at hd he
        simp only [List.mem_cons, Option.some.injEq] at he
        rcases he with he | he
        · subst he
          simpa using hm
        · exact ih hu.2 hd e he hlive

theorem find_entry_none_of_no_match (key : List Nat) (tbl : Table)
    (h : ∀ e, some e ∈ tbl → strncmp_zero e.data.key key KEY_MAX_LEN = false) :
    find_entry key tbl = none := by
  induction tbl with
  | nil => rfl
  | cons slot rest ih =>
    cases slot with
    | none => rfl
    | some e =>
      have hm := h e (List.mem_cons_self _ _)
      simp only [find_entry, hm, Bool.false_eq_true, if_false]
      exact ih (fun e1 he1 => h e1 (List.mem_cons_of_mem _ he1))

set_option maxRecDepth 100000 in
theorem calloc_entry_crc_invalid : crc_valid calloc_entry = false := by decide

/-- What holds of delete, commit and reload: in a table with unique keys, after
`nvs_delete_entry k` has returned true, `nvs_commit` and `nvs_init(false)` on the
file it leaves give a table without any entry whose key compares equal to `k`,
and both getters return false for `k`, as long as what the second slot of the
write buffer held when `nvs_commit` was entered does not pass for a record with
that key (right checksum and a key that compares equal to `k`). -/
theorem delete_commit_init_key_gone (tbl : Table) (k : List Nat) (buf : NVS_Entry × NVS_Entry)
    (fwrite_ok : Nat → Bool) (old_file : List NVS_Entry) (malloc : Nat → NVS_Entry)
    (ret : Bool) (tbl2 : Table) (buf2 : List Nat) (cap : Nat)
    (hu : keys_unique tbl = true) (hd : (nvs_delete_entry tbl k).1 = true)
    (hbuf : crc_valid buf.2 = true → strncmp_zero buf.2.data.key k KEY_MAX_LEN = false)
    (hinit : nvs_init false malloc
      (some (nvs_commit (nvs_delete_entry tbl k).2 buf true fwrite_ok old_file).2.1)
        = some (ret, tbl2)) :
    (∀ e, some e ∈ tbl2 → strncmp_zero e.data.key k KEY_MAX_LEN = false)
      ∧ nvs_get_uint32 tbl2 k = none ∧ nvs_get_string tbl2 k buf2 cap = none := by
  have hall : ∀ e, some e ∈ tbl2 → strncmp_zero e.data.key k KEY_MAX_LEN = false := by
    intro e he
    simp only [nvs_init, Option.map_eq_some', Prod.mk.injEq] at hinit
    obtain ⟨res, hres, _, hres2⟩ := hinit
    subst hres2
    rcases init_loop_mem malloc _ 0 empty_table 0 res hres e he with h | ⟨r, hr, hv, junk, hj⟩
    · simp [empty_table, List.mem_replicate] at h
    · subst hj
      rw [init_entry_key_match]
      simp only [nvs_commit, if_true] at hr
      rcases commit_loop_mem fwrite_ok _ buf 0 false [] (Or.inl rfl) r hr
        with h | h | h | h | ⟨e1, h1, h2, h3⟩
      · simp at h
      · exact absurd h.1 (by decide)
      · subst h
        exact hbuf hv
      · subst h
        rw [calloc_entry_crc_invalid] at hv
        exact absurd hv (by decide)
      · subst h3
        exact delete_entry_unique k tbl hu hd e1 h1 h2
  have hf := find_entry_none_of_no_match k tbl2 hall
  refine ⟨hall, ?_, ?_⟩
  · unfold nvs_get_uint32
    split
    · rfl
    · rw [get_uint32_loop_of_find, hf]
  · unfold nvs_get_string
    split
    · rfl
    · rw [get_string_loop_of_find, hf]

set_option maxRecDepth 100000 in
/-- C3 fails when the write buffer of `nvs_commit` holds stale bytes: in
`two_key_table` keys are unique; `nvs_delete_entry` returns true for
"sample_rate" and leaves one record that is not deleted; `nvs_commit`, entered
with `stale_buffer`, returns true and writes one page, that record and the stale
second slot; `nvs_init(false)` loads both, and `nvs_get_uint32` returns true for
"sample_rate" with the value 44100: the deleted key is back, not deleted. -/
theorem C3_deleted_key_reloaded :
    keys_unique two_key_table = true
      ∧ (nvs_delete_entry two_key_table key_sample_rate).1 = true
      ∧ (nvs_commit (nvs_delete_entry two_key_table key_sample_rate).2 stale_buffer true
            (fun _ => true) []).1 = true
      ∧ (nvs_commit (nvs_delete_entry two_key_table key_sample_rate).2 stale_buffer true
            (fun _ => true) []).2.1
          = [with_crc (new_uint32_entry key_baud_rate 115200),
              with_crc (new_uint32_entry key_sample_rate 44100)]
      ∧ (nvs_init false (fun _ => calloc_entry)
            (some (nvs_commit (nvs_delete_entry two_key_table key_sample_rate).2 stale_buffer
              true (fun _ => true) []).2.1)).map
          (fun r => (r.1, nvs_get_uint32 r.2 key_sample_rate, find_entry key_sample_rate r.2))
          = some (true, some 44100,
              some { new_uint32_entry key_sample_rate 44100 with modified := false }) := by
  refine ⟨by decide, by decide, by decide, by decide, by decide⟩

/-! # The checksum -/

theorem crc_step_eq_spec (crc : Nat) : crc_step crc = crc32_spec_bit crc := by
  unfold crc_step crc32_spec_bit
  rw [Nat.and_one_is_mod]
  rcases Nat.mod_two_eq_zero_or_one crc with h | h
  · rw [h]
    simp
  · rw [h]
    have : (3988292384 : Nat) &&& 4294967295 = 3988292384 := by decide
    simp [this]

theorem crc_step_lt (crc : Nat) (h : crc < 2 ^ 32) : crc_step crc < 2 ^ 32 := by
  unfold crc_step
  apply Nat.xor_lt_two_pow
  · rw [Nat.shiftRight_eq_div_pow]
    omega
  · exact lt_of_le_of_lt Nat.and_le_left (by decide)

theorem iterate_crc_step_lt (n crc : Nat) (h : crc < 2 ^ 32) :
    Nat.iterate crc_step n crc < 2 ^ 32 := by
  induction n generalizing crc with
  | zero => exact h
  | succ m ih => exact ih (crc_step crc) (crc_step_lt crc h)

theorem crc_byte_lt (crc b : Nat) (h : crc < 2 ^ 32) : crc_byte crc b < 2 ^ 32 := by
  unfold crc_byte
  apply iterate_crc_step_lt
  apply Nat.xor_lt_two_pow h
  have : b % 256 < 256 := Nat.mod_lt _ (by decide)
  omega

theorem foldl_crc_byte_lt (data : List Nat) (crc : Nat) (h : crc < 2 ^ 32) :
    data.foldl crc_byte crc < 2 ^ 32 := by
  induction data generalizing crc with
  | nil => exact h
  | cons b rest ih => exact ih (crc_byte crc b) (crc_byte_lt crc b h)

theorem crc_byte_eq_spec (crc b : Nat) (hb : b < 256) : crc_byte crc b = crc32_spec_byte crc b := by
  unfold crc_byte crc32_spec_byte
  rw [Nat.mod_eq_of_lt hb]
  have : crc_step = crc32_spec_bit := funext crc_step_eq_spec
  rw [this]

theorem foldl_crc_byte_eq_spec (data : List Nat) (hb : ∀ b ∈ data, b < 256) (crc : Nat) :
    data.foldl crc_byte crc = data.foldl crc32_spec_byte crc := by
  induction data generalizing crc with
  | nil => rfl
  | cons b rest ih =>
    simp only [List.foldl_cons]
    rw [crc_byte_eq_spec crc b (hb b (List.mem_cons_self _ _))]
    exact ih (fun c hc => hb c (List.mem_cons_of_mem _ hc)) _

/-- On 32 bits the xor with `0xFFFFFFFF` is the complement. -/
theorem xor_ones_eq_sub (x : Nat) (h : x < 2 ^ 32) : x ^^^ 0xFFFFFFFF = 0xFFFFFFFF - x := by
  have h1 : (BitVec.ofNat 32 x ^^^ BitVec.allOnes 32).toNat = x ^^^ 0xFFFFFFFF := by
    rw [BitVec.toNat_xor, BitVec.toNat_allOnes, BitVec.toNat_ofNat, Nat.mod_eq_of_lt h]
  have h2 : (BitVec.ofNat 32 x ^^^ BitVec.allOnes 32).toNat = 0xFFFFFFFF - x := by
    rw [BitVec.xor_allOnes, BitVec.toNat_not, BitVec.toNat_ofNat, Nat.mod_eq_of_lt h]
  rw [← h1, h2]

set_option maxRecDepth 100000 in
/-- C11. The function `compute_crc32` is the reflected CRC-32 of the
specification: for every sequence of bytes it returns what the reference
definition returns (start at `0xFFFFFFFF`, xor each byte into the low byte, 8
times shift right and xor with `0xEDB88320` iff the bit shifted out was 1,
complement at the end), the mask expression of the code being the conditional
form; both give `0xCBF43926` on the ASCII bytes of "123456789". -/
theorem C11_crc32_reference (data : List Nat) (hb : ∀ b ∈ data, b < 256) :
    compute_crc32 data data.length = crc32_spec data
      ∧ (∀ crc, crc_step crc = crc32_spec_bit crc)
      ∧ compute_crc32 check_string check_string.length = 0xCBF43926
      ∧ crc32_spec check_string = 0xCBF43926 := by
  refine ⟨?_, crc_step_eq_spec, by decide, by decide⟩
  unfold compute_crc32 crc32_spec
  rw [List.take_length, xor_ones_eq_sub _ (foldl_crc_byte_lt data _ (by decide)),
    foldl_crc_byte_eq_spec data hb]

set_option maxRecDepth 100000 in
/-- C11 on the bytes of the key "sample_rate". -/
theorem C11_crc32_reference_witness :
    (∀ b ∈ key_sample_rate, b < 256)
      ∧ compute_crc32 key_sample_rate key_sample_rate.length = crc32_spec key_sample_rate :=
  ⟨by decide, (C11_crc32_reference key_sample_rate (by decide)).1⟩

/-! # The contract of delete -/

theorem delete_entry_split (key : List Nat) (tbl : Table)
    (hd : (nvs_delete_entry tbl key).1 = true) :
    ∃ pre e post, tbl = pre ++ some e :: post
      ∧ (∀ s ∈ pre, ∃ e1, s = some e1 ∧ strncmp_zero e1.data.key key KEY_MAX_LEN = false)
      ∧ strncmp_zero e.data.key key KEY_MAX_LEN = true
      ∧ (nvs_delete_entry tbl key).2 = pre ++ some { e with deleted := true } :: post := by
  induction tbl with
  | nil => simp [nvs_delete_entry] at hd
  | cons slot rest ih =>
    cases slot with
    | none => simp [nvs_delete_entry] at hd
    | some e1 =>
      by_cases hm : strncmp_zero e1.data.key key KEY_MAX_LEN = true
      · exact ⟨[], e1, rest, rfl, by simp, hm, by simp [nvs_delete_entry, hm]⟩
      · simp only [nvs_delete_entry, hm, Bool.false_eq_true, if_false] at hd ⊢
        obtain ⟨pre, e, post, h1, h2, h3, h4⟩ := ih hd
        refine ⟨some e1 :: pre, e, post, by simp [h1], ?_, h3, by simp [h4]⟩
        intro s hs
        rcases List.mem_cons.1 hs with h | h
        · exact ⟨e1, h, by simpa using hm⟩
        · exact h2 s h

theorem delete_entry_succeeds (key : List Nat) (pre : Table) (e : NVS_Entry) (post : Table)
    (hpre : ∀ s ∈ pre, s ≠ none) (hm : strncmp_zero e.data.key key KEY_MAX_LEN = true) :
    (nvs_delete_entry (pre ++ some e :: post) key).1 = true := by
  induction pre with
  | nil => simp [nvs_delete_entry, hm]
  | cons s pre1 ih =>
    cases s with
    | none => exact absurd rfl (hpre none (List.mem_cons_self _ _))
    | some e1 =>
      by_cases hm1 : strncmp_zero e1.data.key key KEY_MAX_LEN = true
      · simp [nvs_delete_entry, hm1]
      · simp only [List.cons_append, nvs_delete_entry, hm1, Bool.false_eq_true, if_false]
        exact ih (fun s hs => hpre s (List.mem_cons_of_mem _ hs))

theorem delete_entry_fail_unchanged (key : List Nat) (tbl : Table)
    (hd : (nvs_delete_entry tbl key).1 = false) : (nvs_delete_entry tbl key).2 = tbl := by
  induction tbl with
  | nil => rfl
  | cons slot rest ih =>
    cases slot with
    | none => rfl
    | some e1 =>
      by_cases hm : strncmp_zero e1.data.key key KEY_MAX_LEN = true
      · simp [nvs_delete_entry, hm] at hd
      · simp only [nvs_delete_entry, hm, Bool.false_eq_true, if_false] at hd ⊢
        rw [ih hd]

/-- C12. Delete contract: whatever the table and the key `k`,
`nvs_delete_entry k` returns true iff an entry whose key compares equal to `k`
sits before the first empty slot, deleted already or not; when it returns true
the table differs from the one before only in `deleted = true` on the first
entry with that key, every slot staying where it was; when it returns false the
table is as it was. -/
theorem C12_delete_contract (tbl : Table) (k : List Nat) :
    ((nvs_delete_entry tbl k).1 = true ↔
        ∃ pre e post, tbl = pre ++ some e :: post ∧ (∀ s ∈ pre, s ≠ none)
          ∧ strncmp_zero e.data.key k KEY_MAX_LEN = true)
      ∧ ((nvs_delete_entry tbl k).1 = true →
          ∃ pre e post, tbl = pre ++ some e :: post
            ∧ (∀ s ∈ pre, ∃ e1, s = some e1 ∧ strncmp_zero e1.data.key k KEY_MAX_LEN = false)
            ∧ strncmp_zero e.data.key k KEY_MAX_LEN = true
            ∧ (nvs_delete_entry tbl k).2 = pre ++ some { e with deleted := true } :: post)
      ∧ ((nvs_delete_entry tbl k).1 = false → (nvs_delete_entry tbl k).2 = tbl) := by
  refine ⟨⟨?_, ?_⟩, delete_entry_split k tbl, delete_entry_fail_unchanged k tbl⟩
  · intro hd
    obtain ⟨pre, e, post, h1, h2, h3, _⟩ := delete_entry_split k tbl hd
    refine ⟨pre, e, post, h1, ?_, h3⟩
    intro s hs hnone
    obtain ⟨e1, he1, _⟩ := h2 s hs
    rw [hnone] at he1
    exact Option.noConfusion he1
  · rintro ⟨pre, e, post, h1, h2, h3⟩
    rw [h1]
    exact delete_entry_succeeds k pre e post h2 h3

/-- C12 on the table of `main.c`: deleting "name", the second record, succeeds
and changes that record only; deleting it again succeeds as well; deleting
"baud_rate", which has no record, fails and changes nothing. -/
theorem C12_delete_contract_witness :
    ((nvs_delete_entry demo_table key_name).1 = true
        ∧ (nvs_delete_entry (nvs_delete_entry demo_table key_name).2 key_name).1 = true
        ∧ (nvs_delete_entry demo_table key_baud_rate).1 = false)
      ∧ (∃ pre e post, demo_table = pre ++ some e :: post
          ∧ (∀ s ∈ pre, ∃ e1, s = some e1
              ∧ strncmp_zero e1.data.key key_name KEY_MAX_LEN = false)
          ∧ strncmp_zero e.data.key key_name KEY_MAX_LEN = true
          ∧ (nvs_delete_entry demo_table key_name).2
              = pre ++ some { e with deleted := true } :: post)
      ∧ (nvs_delete_entry demo_table key_baud_rate).2 = demo_table :=
  ⟨⟨by decide, by decide, by decide⟩,
    (C12_delete_contract demo_table key_name).2.1 (by decide),
    (C12_delete_contract demo_table key_baud_rate).2.2 (by decide)⟩

/-! # Rejected keys -/

/-- C13 (as amended). Key-length rejection in insert-or-update:
`nvs_set_uint32` and `nvs_set_string` reject every key of 32 characters or more
(`KEY_MAX_LEN`), whatever the table holds, and leave the table as it was. -/
theorem C13_key_too_long (tbl : Table) (k s : List Nat) (v : Nat) (hk : strlen k ≥ 32) :
    nvs_set_uint32 tbl k v = (false, tbl) ∧ nvs_set_string tbl k s = (false, tbl) := by
  have hk' : strlen k ≥ KEY_MAX_LEN := hk
  exact ⟨by simp [nvs_set_uint32, hk'], by simp [nvs_set_string, hk']⟩

/-- C13 (as amended) on the table of `main.c` with a key of 32 characters. -/
theorem C13_key_too_long_witness :
    strlen key32 ≥ 32
      ∧ nvs_set_uint32 demo_table key32 7 = (false, demo_table)
      ∧ nvs_set_string demo_table key32 val_paul = (false, demo_table) :=
  ⟨by decide, C13_key_too_long demo_table key32 val_paul 7 (by decide)⟩

/-- C13 as stated fails: a key of 31 characters is not rejected; on the empty
table both setters return true for it and change the table. -/
theorem C13_counterexample :
    strlen key31 ≥ 31
      ∧ (nvs_set_uint32 empty_table key31 7).1 = true
      ∧ (nvs_set_uint32 empty_table key31 7).2 ≠ empty_table
      ∧ (nvs_set_string empty_table key31 val_paul).1 = true
      ∧ (nvs_set_string empty_table key31 val_paul).2 ≠ empty_table := by
  refine ⟨by decide, by decide, by decide, by decide, by decide⟩

/-! # The keys of the records -/

theorem set_uint32_loop_keys (Q : List Nat → Prop) (key : List Nat) (val : Nat) (tbl : Table)
    (hnew : Q (strncpy calloc_entry.data.key key (KEY_MAX_LEN - 1)))
    (h : ∀ e, some e ∈ tbl → Q e.data.key) :
    ∀ e, some e ∈ (nvs_set_uint32_loop key val tbl).2 → Q e.data.key := by
  induction tbl with
  | nil => simp [nvs_set_uint32_loop]
  | cons slot rest ih =>
    have hrest : ∀ e, some e ∈ rest → Q e.data.key := fun e he =>
      h e (List.mem_cons_of_mem _ he)
    cases slot with
    | none =>
      intro e he
      simp only [nvs_set_uint32_loop, List.mem_cons, Option.some.injEq] at he
      rcases he with he | he
      · subst he
        exact hnew
      · exact hrest e he
    | some e1 =>
      have h1 : Q e1.data.key := h e1 (List.mem_cons_self _ _)
      intro e he
      simp only [nvs_set_uint32_loop] at he
      split at he
      · split at he
        · exact h e he
        · split at he
          · exact h e he
          · simp only [List.mem_cons, Option.some.injEq] at he
            rcases he with he | he
            · subst he
              exact h1
            · exact hrest e he
      · simp only [List.mem_cons, Option.some.injEq] at he
        rcases he with he | he
        · subst he
          exact h1
        · exact ih hrest e he

theorem set_string_loop_keys (Q : List Nat → Prop) (key str_val : List Nat) (tbl : Table)
    (hnew : Q (strncpy calloc_entry.data.key key (KEY_MAX_LEN - 1)))
    (h : ∀ e, some e ∈ tbl → Q e.data.key) :
    ∀ e, some e ∈ (nvs_set_string_loop key str_val tbl).2 → Q e.data.key := by
  induction tbl with
  | nil => simp [nvs_set_string_loop]
  | cons slot rest ih =>
    have hrest : ∀ e, some e ∈ rest → Q e.data.key := fun e he =>
      h e (List.mem_cons_of_mem _ he)
    cases slot with
    | none =>
      intro e he
      simp only [nvs_set_string_loop, List.mem_cons, Option.some.injEq] at he
      rcases he with he | he
      · subst he
        exact hnew
      · exact hrest e he
    | some e1 =>
      have h1 : Q e1.data.key := h e1 (List.mem_cons_self _ _)
      intro e he
      simp only [nvs_set_string_loop] at he
      split at he
      · split at he
        · exact h e he
        · split at he
          · exact h e he
          · simp only [List.mem_cons, Option.some.injEq] at he
            rcases he with he | he
            · subst he
              exact h1
            · exact hrest e he
      · simp only [List.mem_cons, Option.some.injEq] at he
        rcases he with he | he
        · subst he
          exact h1
        · exact ih hrest e he

theorem delete_entry_keys (Q : List Nat → Prop) (key : List Nat) (tbl : Table)
    (h : ∀ e, some e ∈ tbl → Q e.data.key) :
    ∀ e, some e ∈ (nvs_delete_entry tbl key).2 → Q e.data.key := by
  induction tbl with
  | nil => simp [nvs_delete_entry]
  | cons slot rest ih =>
    have hrest : ∀ e, some e ∈ rest → Q e.data.key := fun e he =>
      h e (List.mem_cons_of_mem _ he)
    cases slot with
    | none => exact h
    | some e1 =>
      have h1 : Q e1.data.key := h e1 (List.mem_cons_self _ _)
      intro e he
      simp only [nvs_delete_entry] at he
      split at he
      · simp only [List.mem_cons, Option.some.injEq] at he
        rcases he with he | he
        · subst he
          exact h1
        · exact hrest e he
      · simp only [List.mem_cons, Option.some.injEq] at he
        rcases he with he | he
        · subst he
          exact h1
        · exact ih hrest e he

theorem strlen_stored_key (key : List Nat) (h : strlen key < KEY_MAX_LEN) :
    strlen (strncpy calloc_entry.data.key key (KEY_MAX_LEN - 1)) = strlen key := by
  have h31 : strlen key ≤ KEY_MAX_LEN - 1 := by simp only [KEY_MAX_LEN] at h ⊢; omega
  unfold strlen
  rw [takeWhile_strncpy _ _ _ h31 (Or.inr (by decide))]

theorem apply_op_key_length (tbl : Table) (op : Op)
    (h : ∀ e, some e ∈ tbl → strlen e.data.key < KEY_MAX_LEN) :
    ∀ e, some e ∈ apply_op tbl op → strlen e.data.key < KEY_MAX_LEN := by
  cases op with
  | set_uint32 key val =>
    by_cases hk : strlen key ≥ KEY_MAX_LEN
    · simpa only [apply_op, nvs_set_uint32, hk, if_true] using h
    · simp only [apply_op, nvs_set_uint32, hk, if_false]
      have hnew : strlen (strncpy calloc_entry.data.key key (KEY_MAX_LEN - 1)) < KEY_MAX_LEN := by
        rw [strlen_stored_key key (by omega)]
        omega
      exact set_uint32_loop_keys (fun k => strlen k < KEY_MAX_LEN) key val tbl hnew h
  | set_string key str_val =>
    by_cases hk : strlen key ≥ KEY_MAX_LEN
    · simpa only [apply_op, nvs_set_string, hk, if_true] using h
    · simp only [apply_op, nvs_set_string, hk, if_false]
      have hnew : strlen (strncpy calloc_entry.data.key key (KEY_MAX_LEN - 1)) < KEY_MAX_LEN := by
        rw [strlen_stored_key key (by omega)]
        omega
      exact set_string_loop_keys (fun k => strlen k < KEY_MAX_LEN) key str_val tbl hnew h
  | delete_entry key => exact delete_entry_keys (fun k => strlen k < KEY_MAX_LEN) key tbl h

theorem run_ops_key_length (ops : List Op) (tbl : Table)
    (h : ∀ e, some e ∈ tbl → strlen e.data.key < KEY_MAX_LEN) :
    ∀ e, some e ∈ run_ops tbl ops → strlen e.data.key < KEY_MAX_LEN := by
  induction ops generalizing tbl with
  | nil => exact h
  | cons op rest ih =>
    simp only [run_ops, List.foldl_cons]
    exact ih (apply_op tbl op) (apply_op_key_length tbl op h)

/-- C14 (as amended). Every record of a table reached from the empty table by
`nvs_set_uint32`, `nvs_set_string` and `nvs_delete_entry` calls has a key of at
most 31 characters; the key may be empty: on a table with a free slot and no
record for it, both setters accept the empty key and create a record for it. -/
theorem C14_keys_at_most_31 (ops : List Op) (e : NVS_Entry)
    (he : some e ∈ run_ops empty_table ops) (tbl : Table) (v : Nat) (s : List Nat)
    (hfree : none ∈ tbl) (hno : find_entry [] tbl = none) :
    strlen e.data.key ≤ 31
      ∧ (nvs_set_uint32 tbl [] v).1 = true
      ∧ find_entry [] (nvs_set_uint32 tbl [] v).2 = some (new_uint32_entry [] v)
      ∧ (nvs_set_string tbl [] s).1 = true
      ∧ find_entry [] (nvs_set_string tbl [] s).2 = some (new_string_entry [] s)
      ∧ strlen (new_uint32_entry [] v).data.key = 0
      ∧ strlen (new_string_entry [] s).data.key = 0 := by
  have h0 : ∀ e, some e ∈ empty_table → strlen e.data.key < KEY_MAX_LEN := by
    intro e1 he1
    simp [empty_table, List.mem_replicate] at he1
  have hlen := run_ops_key_length ops empty_table h0 e he
  have hk : strlen ([] : List Nat) < KEY_MAX_LEN := by decide
  have hk' : ¬ strlen ([] : List Nat) ≥ KEY_MAX_LEN := by decide
  obtain ⟨hu1, hu2⟩ := set_uint32_loop_insert [] v hk tbl hfree hno
  obtain ⟨hs1, hs2⟩ := set_string_loop_insert [] s hk tbl hfree hno
  refine ⟨?_, ?_, ?_, ?_, ?_, ?_, ?_⟩
  · simp only [KEY_MAX_LEN] at hlen
    omega
  · simpa [nvs_set_uint32, hk'] using hu1
  · simpa [nvs_set_uint32, hk'] using hu2
  · simpa [nvs_set_string, hk'] using hs1
  · simpa [nvs_set_string, hk'] using hs2
  · exact strlen_stored_key [] hk
  · exact strlen_stored_key [] hk

/-- C14 (as amended) on the record "name" left by the calls of `main.c`, and for
the empty key on the table of `main.c`. -/
theorem C14_keys_at_most_31_witness :
    (some (new_string_entry key_name val_paul) ∈ run_ops empty_table demo_ops
        ∧ none ∈ demo_table ∧ find_entry [] demo_table = none)
      ∧ strlen (new_string_entry key_name val_paul).data.key ≤ 31
      ∧ (nvs_set_uint32 demo_table [] 7).1 = true :=
  have h := C14_keys_at_most_31 demo_ops (new_string_entry key_name val_paul) (by decide)
    demo_table 7 val_paul (by decide) (by decide)
  ⟨⟨by decide, by decide, by decide⟩, h.1, h.2.1⟩

/-- C14 as stated fails: `nvs_set_uint32` called with the empty key on the empty
table returns true and creates a record whose key is empty, so the table
reached by that one call holds a record with an empty key; `nvs_set_string`
does the same. -/
theorem C14_counterexample :
    (nvs_set_uint32 empty_table [] 5).1 = true
      ∧ some (new_uint32_entry [] 5) ∈ run_ops empty_table [Op.set_uint32 [] 5]
      ∧ strlen (new_uint32_entry [] 5).data.key = 0
      ∧ (nvs_set_string empty_table [] val_paul).1 = true
      ∧ some (new_string_entry [] val_paul) ∈ run_ops empty_table [Op.set_string [] val_paul]
      ∧ strlen (new_string_entry [] val_paul).data.key = 0 := by
  refine ⟨by decide, by decide, by decide, by decide, by decide, by decide⟩

/-! # The shape of a set -/

theorem set_uint32_loop_shape (key : List Nat) (val : Nat) (tbl : Table)
    (hs : (nvs_set_uint32_loop key val tbl).1 = true) :
    (∃ pre post, tbl = pre ++ none :: post
        ∧ (∀ s ∈ pre, ∃ e1, s = some e1 ∧ strncmp_zero e1.data.key key KEY_MAX_LEN = false)
        ∧ (nvs_set_uint32_loop key val tbl).2 = pre ++ some (new_uint32_entry key val) :: post)
      ∨ (∃ pre e post, tbl = pre ++ some e :: post
        ∧ (∀ s ∈ pre, ∃ e1, s = some e1 ∧ strncmp_zero e1.data.key key KEY_MAX_LEN = false)
        ∧ strncmp_zero e.data.key key KEY_MAX_LEN = true
        ∧ e.deleted = false ∧ e.data.type = TYPE_UINT32
        ∧ (nvs_set_uint32_loop key val tbl).2 = pre ++ some (updated_uint32 e val) :: post) := by
  induction tbl with
  | nil => simp [nvs_set_uint32_loop] at hs
  | cons slot rest ih =>
    cases slot with
    | none => exact Or.inl ⟨[], rest, rfl, by simp, by simp [nvs_set_uint32_loop]⟩
    | some e1 =>
      by_cases hm : strncmp_zero e1.data.key key KEY_MAX_LEN = true
      · by_cases hd : e1.deleted = true
        · simp [nvs_set_uint32_loop, hm, hd] at hs
        · by_cases ht : e1.data.type = TYPE_UINT32
          · exact Or.inr ⟨[], e1, rest, rfl, by simp, hm, by simpa using hd, ht,
              by simp [nvs_set_uint32_loop, hm, hd, ht, updated_uint32]⟩
          · simp [nvs_set_uint32_loop, hm, hd, ht] at hs
      · simp only [nvs_set_uint32_loop, hm, Bool.false_eq_true, if_false] at hs ⊢
        have hpre : ∀ pre : Table,
            (∀ s ∈ pre, ∃ e2, s = some e2 ∧ strncmp_zero e2.data.key key KEY_MAX_LEN = false) →
            ∀ s ∈ some e1 :: pre,
              ∃ e2, s = some e2 ∧ strncmp_zero e2.data.key key KEY_MAX_LEN = false := by
          intro pre h s hmem
          rcases List.mem_cons.1 hmem with h1 | h1
          · exact ⟨e1, h1, by simpa using hm⟩
          · exact h s h1
        rcases ih hs with ⟨pre, post, h1, h2, h3⟩ | ⟨pre, e, post, h1, h2, h3, h4, h5, h6⟩
        · exact Or.inl ⟨some e1 :: pre, post, by simp [h1], hpre pre h2, by simp [h3]⟩
        · exact Or.inr ⟨some e1 :: pre, e, post, by simp [h1], hpre pre h2, h3, h4, h5,
            by simp [h6]⟩

theorem set_string_loop_shape (key str_val : List Nat) (tbl : Table)
    (hs : (nvs_set_string_loop key str_val tbl).1 = true) :
    (∃ pre post, tbl = pre ++ none :: post
        ∧ (∀ s ∈ pre, ∃ e1, s = some e1 ∧ strncmp_zero e1.data.key key KEY_MAX_LEN = false)
        ∧ (nvs_set_string_loop key str_val tbl).2
            = pre ++ some (new_string_entry key str_val) :: post)
      ∨ (∃ pre e post, tbl = pre ++ some e :: post
        ∧ (∀ s ∈ pre, ∃ e1, s = some e1 ∧ strncmp_zero e1.data.key key KEY_MAX_LEN = false)
        ∧ strncmp_zero e.data.key key KEY_MAX_LEN = true
        ∧ e.deleted = false ∧ e.data.type = TYPE_STRING
        ∧ (nvs_set_string_loop key str_val tbl).2
            = pre ++ some (updated_string e str_val) :: post) := by
  induction tbl with
  | nil => simp [nvs_set_string_loop] at hs
  | cons slot rest ih =>
    cases slot with
    | none => exact Or.inl ⟨[], rest, rfl, by simp, by simp [nvs_set_string_loop]⟩
    | some e1 =>
      by_cases hm : strncmp_zero e1.data.key key KEY_MAX_LEN = true
      · by_cases ht : e1.data.type = TYPE_STRING
        · by_cases hd : e1.deleted = true
          · simp [nvs_set_string_loop, hm, hd, ht] at hs
          · exact Or.inr ⟨[], e1, rest, rfl, by simp, hm, by simpa using hd, ht,
              by simp [nvs_set_string_loop, hm, hd, ht, updated_string]⟩
        · simp [nvs_set_string_loop, hm, ht] at hs
      · simp only [nvs_set_string_loop, hm, Bool.false_eq_true, if_false] at hs ⊢
        have hpre : ∀ pre : Table,
            (∀ s ∈ pre, ∃ e2, s = some e2 ∧ strncmp_zero e2.data.key key KEY_MAX_LEN = false) →
            ∀ s ∈ some e1 :: pre,
              ∃ e2, s = some e2 ∧ strncmp_zero e2.data.key key KEY_MAX_LEN = false := by
          intro pre h s hmem
          rcases List.mem_cons.1 hmem with h1 | h1
          · exact ⟨e1, h1, by simpa using hm⟩
          · exact h s h1
        rcases ih hs with ⟨pre, post, h1, h2, h3⟩ | ⟨pre, e, post, h1, h2, h3, h4, h5, h6⟩
        · exact Or.inl ⟨some e1 :: pre, post, by simp [h1], hpre pre h2, by simp [h3]⟩
        · exact Or.inr ⟨some e1 :: pre, e, post, by simp [h1], hpre pre h2, h3, h4, h5,
            by simp [h6]⟩

theorem set_uint32_loop_fail_unchanged (key : List Nat) (val : Nat) (tbl : Table)
    (hs : (nvs_set_uint32_loop key val tbl).1 = false) :
    (nvs_set_uint32_loop key val tbl).2 = tbl := by
  induction tbl with
  | nil => rfl
  | cons slot rest ih =>
    cases slot with
    | none => simp [nvs_set_uint32_loop] at hs
    | some e1 =>
      simp only [nvs_set_uint32_loop] at hs ⊢
      split
      · split
        · rfl
        · split
          · rfl
          · rename_i h1 h2 h3
            simp [h1, h2, h3] at hs
      · rename_i h1
        simp only [h1, if_false] at hs
        rw [ih hs]

theorem set_string_loop_fail_unchanged (key str_val : List Nat) (tbl : Table)
    (hs : (nvs_set_string_loop key str_val tbl).1 = false) :
    (nvs_set_string_loop key str_val tbl).2 = tbl := by
  induction tbl with
  | nil => rfl
  | cons slot rest ih =>
    cases slot with
    | none => simp [nvs_set_string_loop] at hs
    | some e1 =>
      simp only [nvs_set_string_loop] at hs ⊢
      split
      · split
        · rfl
        · split
          · rfl
          · rename_i h1 h2 h3
            simp [h1, h2, h3] at hs
      · rename_i h1
        simp only [h1, if_false] at hs
        rw [ih hs]

/-! # Uniqueness of keys -/

theorem stored_key_match_eq (a key : List Nat) (h : strlen key < KEY_MAX_LEN) :
    strncmp_zero a (strncpy calloc_entry.data.key key (KEY_MAX_LEN - 1)) KEY_MAX_LEN
      = strncmp_zero a key KEY_MAX_LEN := by
  have h31 : strlen key ≤ KEY_MAX_LEN - 1 := by simp only [KEY_MAX_LEN] at h ⊢; omega
  rw [Bool.eq_iff_iff, strncmp_zero_iff, strncmp_zero_iff,
    cstrn_strncpy _ _ _ _ h31 (le_of_lt h) (Or.inr (by decide)),
    cstrn_of_strlen_le _ _ (le_of_lt h)]

theorem all_distinct_of_keys (e : NVS_Entry) (tbl : Table)
    (h : ∀ e2, some e2 ∈ tbl → strncmp_zero e.data.key e2.data.key KEY_MAX_LEN = false) :
    tbl.all (distinct_keys (some e)) = true := by
  rw [List.all_eq_true]
  intro s hs
  cases s with
  | none => rfl
  | some e2 => simp [distinct_keys, h e2 hs]

theorem keys_of_all_distinct (e : NVS_Entry) (tbl : Table)
    (h : tbl.all (distinct_keys (some e)) = true) :
    ∀ e2, some e2 ∈ tbl → strncmp_zero e.data.key e2.data.key KEY_MAX_LEN = false := by
  rw [List.all_eq_true] at h
  intro e2 he2
  simpa [distinct_keys] using h (some e2) he2

theorem keys_unique_of_all_none (rest : Table) (h : rest.all Option.isNone = true) :
    keys_unique rest = true := by
  induction rest with
  | nil => rfl
  | cons x xs ih =>
    simp only [List.all_cons, Bool.and_eq_true] at h
    cases x with
    | some e => simp at h
    | none =>
      simp only [keys_unique, Bool.and_eq_true]
      refine ⟨?_, ih h.2⟩
      rw [List.all_eq_true]
      intro s _
      rfl

theorem all_distinct_of_all_none (a : Option NVS_Entry) (rest : Table)
    (h : rest.all Option.isNone = true) : rest.all (distinct_keys a) = true := by
  rw [List.all_eq_true] at h ⊢
  intro s hs
  have := h s hs
  cases s with
  | none => cases a <;> rfl
  | some e => simp at this

theorem set_uint32_loop_unique (key : List Nat) (val : Nat) (hk : strlen key < KEY_MAX_LEN)
    (tbl : Table) (hc : compactb tbl = true) (hu : keys_unique tbl = true) :
    keys_unique (nvs_set_uint32_loop key val tbl).2 = true := by
  induction tbl with
  | nil => rfl
  | cons slot rest ih =>
    cases slot with
    | none =>
      simp only [compactb] at hc
      simp only [nvs_set_uint32_loop, keys_unique, Bool.and_eq_true]
      exact ⟨all_distinct_of_all_none _ rest hc, keys_unique_of_all_none rest hc⟩
    | some e1 =>
      simp only [compactb] at hc
      have hu' := hu
      simp only [keys_unique, Bool.and_eq_true] at hu'
      simp only [nvs_set_uint32_loop]
      split
      · split
        · exact hu
        · split
          · exact hu
          · simp only [keys_unique, Bool.and_eq_true]
            exact ⟨all_distinct_of_keys _ rest (keys_of_all_distinct e1 rest hu'.1), hu'.2⟩
      · rename_i hm
        simp only [keys_unique, Bool.and_eq_true]
        refine ⟨all_distinct_of_keys e1 _ ?_, ih hc hu'.2⟩
        apply set_uint32_loop_keys
          (fun k2 => strncmp_zero e1.data.key k2 KEY_MAX_LEN = false) key val rest
        · show strncmp_zero e1.data.key (strncpy calloc_entry.data.key key (KEY_MAX_LEN - 1))
            KEY_MAX_LEN = false
          rw [stored_key_match_eq _ _ hk]
          simpa using hm
        · exact keys_of_all_distinct e1 rest hu'.1

theorem set_string_loop_unique (key str_val : List Nat) (hk : strlen key < KEY_MAX_LEN)
    (tbl : Table) (hc : compactb tbl = true) (hu : keys_unique tbl = true) :
    keys_unique (nvs_set_string_loop key str_val tbl).2 = true := by
  induction tbl with
  | nil => rfl
  | cons slot rest ih =>
    cases slot with
    | none =>
      simp only [compactb] at hc
      simp only [nvs_set_string_loop, keys_unique, Bool.and_eq_true]
      exact ⟨all_distinct_of_all_none _ rest hc, keys_unique_of_all_none rest hc⟩
    | some e1 =>
      simp only [compactb] at hc
      have hu' := hu
      simp only [keys_unique, Bool.and_eq_true] at hu'
      simp only [nvs_set_string_loop]
      split
      · split
        · exact hu
        · split
          · exact hu
          · simp only [keys_unique, Bool.and_eq_true]
            exact ⟨all_distinct_of_keys _ rest (keys_of_all_distinct e1 rest hu'.1), hu'.2⟩
      · rename_i hm
        simp only [keys_unique, Bool.and_eq_true]
        refine ⟨all_distinct_of_keys e1 _ ?_, ih hc hu'.2⟩
        apply set_string_loop_keys
          (fun k2 => strncmp_zero e1.data.key k2 KEY_MAX_LEN = false) key str_val rest
        · show strncmp_zero e1.data.key (strncpy calloc_entry.data.key key (KEY_MAX_LEN - 1))
            KEY_MAX_LEN = false
          rw [stored_key_match_eq _ _ hk]
          simpa using hm
        · exact keys_of_all_distinct e1 rest hu'.1

theorem delete_entry_unique_keys (key : List Nat) (tbl : Table) (hu : keys_unique tbl = true) :
    keys_unique (nvs_delete_entry tbl key).2 = true := by
  induction tbl with
  | nil => rfl
  | cons slot rest ih =>
    cases slot with
    | none => exact hu
    | some e1 =>
      have hu' := hu
      simp only [keys_unique, Bool.and_eq_true] at hu'
      simp only [nvs_delete_entry]
      split
      · simp only [keys_unique, Bool.and_eq_true]
        exact ⟨all_distinct_of_keys _ rest (keys_of_all_distinct e1 rest hu'.1), hu'.2⟩
      · simp only [keys_unique, Bool.and_eq_true]
        refine ⟨all_distinct_of_keys e1 _ ?_, ih hu'.2⟩
        exact delete_entry_keys (fun k2 => strncmp_zero e1.data.key k2 KEY_MAX_LEN = false)
          key rest (keys_of_all_distinct e1 rest hu'.1)

theorem apply_op_unique (tbl : Table) (op : Op) (hc : compactb tbl = true)
    (hu : keys_unique tbl = true) : keys_unique (apply_op tbl op) = true := by
  cases op with
  | set_uint32 key val =>
    by_cases hk : strlen key ≥ KEY_MAX_LEN
    · simpa only [apply_op, nvs_set_uint32, hk, if_true] using hu
    · simp only [apply_op, nvs_set_uint32, hk, if_false]
      exact set_uint32_loop_unique key val (by omega) tbl hc hu
  | set_string key str_val =>
    by_cases hk : strlen key ≥ KEY_MAX_LEN
    · simpa only [apply_op, nvs_set_string, hk, if_true] using hu
    · simp only [apply_op, nvs_set_string, hk, if_false]
      exact set_string_loop_unique key str_val (by omega) tbl hc hu
  | delete_entry key => exact delete_entry_unique_keys key tbl hu

theorem run_ops_unique (ops : List Op) (tbl : Table) (hc : compactb tbl = true)
    (hu : keys_unique tbl = true) : keys_unique (run_ops tbl ops) = true := by
  induction ops generalizing tbl with
  | nil => exact hu
  | cons op rest ih =>
    simp only [run_ops, List.foldl_cons]
    exact ih (apply_op tbl op) (apply_op_compactb tbl op hc) (apply_op_unique tbl op hc hu)

theorem num_records_some (pre post : Table) (a b : NVS_Entry) :
    num_records (pre ++ some a :: post) = num_records (pre ++ some b :: post) := by
  simp [num_records, List.filter_append, List.filter_cons]

theorem set_uint32_new_record (tbl : Table) (k : List Nat) (v : Nat)
    (hn : num_records (nvs_set_uint32 tbl k v).2 ≠ num_records tbl) :
    ∃ pre post, tbl = pre ++ none :: post
      ∧ (∀ s ∈ pre, ∃ e1, s = some e1 ∧ strncmp_zero e1.data.key k KEY_MAX_LEN = false)
      ∧ (nvs_set_uint32 tbl k v).2 = pre ++ some (new_uint32_entry k v) :: post := by
  unfold nvs_set_uint32 at hn ⊢
  by_cases hk : strlen k ≥ KEY_MAX_LEN
  · simp [hk] at hn
  · simp only [hk, if_false] at hn ⊢
    cases hr : (nvs_set_uint32_loop k v tbl).1 with
    | false =>
      rw [set_uint32_loop_fail_unchanged k v tbl hr] at hn
      exact absurd rfl hn
    | true =>
      rcases set_uint32_loop_shape k v tbl hr with h | ⟨pre, e, post, h1, _, _, _, _, h6⟩
      · exact h
      · rw [h6] at hn
        rw [h1] at hn
        exact absurd (num_records_some pre post _ _) hn

theorem set_string_new_record (tbl : Table) (k s : List Nat)
    (hn : num_records (nvs_set_string tbl k s).2 ≠ num_records tbl) :
    ∃ pre post, tbl = pre ++ none :: post
      ∧ (∀ x ∈ pre, ∃ e1, x = some e1 ∧ strncmp_zero e1.data.key k KEY_MAX_LEN = false)
      ∧ (nvs_set_string tbl k s).2 = pre ++ some (new_string_entry k s) :: post := by
  unfold nvs_set_string at hn ⊢
  by_cases hk : strlen k ≥ KEY_MAX_LEN
  · simp [hk] at hn
  · simp only [hk, if_false] at hn ⊢
    cases hr : (nvs_set_string_loop k s tbl).1 with
    | false =>
      rw [set_string_loop_fail_unchanged k s tbl hr] at hn
      exact absurd rfl hn
    | true =>
      rcases set_string_loop_shape k s tbl hr with h | ⟨pre, e, post, h1, _, _, _, _, h6⟩
      · exact h
      · rw [h6] at hn
        rw [h1] at hn
        exact absurd (num_records_some pre post _ _) hn

/-- C15. Key uniqueness invariant: from a compact table in which no two
records have keys that compare equal, every sequence of `nvs_set_uint32`,
`nvs_set_string` and `nvs_delete_entry` calls leaves a table in which no two
records, deleted or not, have keys that compare equal; and whenever a setter
changes the number of records of a table, the scan went over occupied slots
without a key match up to the first empty slot, where the new record stands. -/
theorem C15_key_uniqueness (tbl : Table) (ops : List Op) (hc : compact tbl)
    (hu : keys_unique tbl = true) (tbl2 : Table) (k s : List Nat) (v : Nat) :
    keys_unique (run_ops tbl ops) = true
      ∧ (num_records (nvs_set_uint32 tbl2 k v).2 ≠ num_records tbl2 →
          ∃ pre post, tbl2 = pre ++ none :: post
            ∧ (∀ x ∈ pre, ∃ e1, x = some e1 ∧ strncmp_zero e1.data.key k KEY_MAX_LEN = false)
            ∧ (nvs_set_uint32 tbl2 k v).2 = pre ++ some (new_uint32_entry k v) :: post)
      ∧ (num_records (nvs_set_string tbl2 k s).2 ≠ num_records tbl2 →
          ∃ pre post, tbl2 = pre ++ none :: post
            ∧ (∀ x ∈ pre, ∃ e1, x = some e1 ∧ strncmp_zero e1.data.key k KEY_MAX_LEN = false)
            ∧ (nvs_set_string tbl2 k s).2 = pre ++ some (new_string_entry k s) :: post) :=
  ⟨run_ops_unique ops tbl ((compact_iff tbl).2 hc) hu, set_uint32_new_record tbl2 k v,
    set_string_new_record tbl2 k s⟩

/-- C15 for the calls of `main.c` from the empty table, and for a new key,
"baud_rate", set on the table of `main.c`. -/
theorem C15_key_uniqueness_witness :
    (compact empty_table ∧ keys_unique empty_table = true
        ∧ num_records (nvs_set_uint32 demo_table key_baud_rate 115200).2
            ≠ num_records demo_table)
      ∧ keys_unique (run_ops empty_table demo_ops) = true
      ∧ ∃ pre post, demo_table = pre ++ none :: post
          ∧ (∀ x ∈ pre, ∃ e1, x = some e1
              ∧ strncmp_zero e1.data.key key_baud_rate KEY_MAX_LEN = false)
          ∧ (nvs_set_uint32 demo_table key_baud_rate 115200).2
              = pre ++ some (new_uint32_entry key_baud_rate 115200) :: post :=
  have h := C15_key_uniqueness empty_table demo_ops ((compact_iff empty_table).1 (by decide))
    (by decide) demo_table key_baud_rate val_paul 115200
  ⟨⟨(compact_iff empty_table).1 (by decide), by decide, by decide⟩, h.1, h.2.1 (by decide)⟩

/-! # The frame of a successful set -/

theorem find_entry_replace (k2 : List Nat) (a b : Option NVS_Entry) (post : Table)
    (hab : find_entry k2 (a :: post) = find_entry k2 (b :: post)) (pre : Table) :
    find_entry k2 (pre ++ a :: post) = find_entry k2 (pre ++ b :: post) := by
  induction pre with
  | nil => exact hab
  | cons x xs ih =>
    cases x with
    | none => rfl
    | some e =>
      simp only [List.cons_append, find_entry]
      split
      · rfl
      · exact ih

theorem find_entry_all_none (k2 : List Nat) (post : Table)
    (h : post.all Option.isNone = true) : find_entry k2 post = none := by
  cases post with
  | nil => rfl
  | cons x xs =>
    simp only [List.all_cons, Bool.and_eq_true] at h
    cases x with
    | none => rfl
    | some e => simp at h

theorem compactb_split (pre post : Table) (hpre : ∀ x ∈ pre, x ≠ none)
    (hc : compactb (pre ++ none :: post) = true) : post.all Option.isNone = true := by
  induction pre with
  | nil => exact hc
  | cons x xs ih =>
    cases x with
    | none => exact absurd rfl (hpre none (List.mem_cons_self _ _))
    | some e => exact ih (fun y hy => hpre y (List.mem_cons_of_mem _ hy)) hc

theorem match_other_key (a k k2 : List Nat) (hk : strlen k < KEY_MAX_LEN)
    (hk2 : strlen k2 < KEY_MAX_LEN)
    (hdiff : k2.takeWhile (fun b => b != 0) ≠ k.takeWhile (fun b => b != 0))
    (hm : strncmp_zero a k KEY_MAX_LEN = true) : strncmp_zero a k2 KEY_MAX_LEN = false := by
  rw [Bool.eq_false_iff]
  intro hm2
  rw [strncmp_zero_iff, cstrn_of_strlen_le _ _ (le_of_lt hk)] at hm
  rw [strncmp_zero_iff, cstrn_of_strlen_le _ _ (le_of_lt hk2)] at hm2
  exact hdiff (hm2.symm.trans hm)

theorem occupied_of_no_match (k : List Nat) (pre : Table)
    (h : ∀ x ∈ pre, ∃ e1, x = some e1 ∧ strncmp_zero e1.data.key k KEY_MAX_LEN = false) :
    ∀ x ∈ pre, x ≠ none := by
  intro x hx hnone
  obtain ⟨e1, he1, _⟩ := h x hx
  rw [hnone] at he1
  exact Option.noConfusion he1

theorem set_uint32_find_other (tbl : Table) (k k2 : List Nat) (v : Nat)
    (hc : compactb tbl = true) (hs : (nvs_set_uint32 tbl k v).1 = true)
    (hk2 : strlen k2 < KEY_MAX_LEN)
    (hdiff : k2.takeWhile (fun b => b != 0) ≠ k.takeWhile (fun b => b != 0)) :
    find_entry k2 (nvs_set_uint32 tbl k v).2 = find_entry k2 tbl := by
  unfold nvs_set_uint32 at hs ⊢
  by_cases hk : strlen k ≥ KEY_MAX_LEN
  · simp [hk] at hs
  · simp only [hk, if_false] at hs ⊢
    have hk' : strlen k < KEY_MAX_LEN := by omega
    rcases set_uint32_loop_shape k v tbl hs with
      ⟨pre, post, h1, h2, h3⟩ | ⟨pre, e, post, h1, _, h3, _, _, h6⟩
    · rw [h3, h1]
      apply find_entry_replace
      rw [h1] at hc
      have hpost := compactb_split pre post (occupied_of_no_match k pre h2) hc
      have hnm : strncmp_zero (new_uint32_entry k v).data.key k2 KEY_MAX_LEN = false :=
        match_other_key _ k k2 hk' hk2 hdiff (new_key_match k hk')
      simp only [find_entry, hnm, Bool.false_eq_true, if_false]
      exact find_entry_all_none k2 post hpost
    · rw [h6, h1]
      apply find_entry_replace
      have hnm : strncmp_zero e.data.key k2 KEY_MAX_LEN = false :=
        match_other_key _ k k2 hk' hk2 hdiff h3
      have hnm2 : strncmp_zero (updated_uint32 e v).data.key k2 KEY_MAX_LEN = false := hnm
      simp only [find_entry, hnm, hnm2, Bool.false_eq_true, if_false]

theorem set_string_find_other (tbl : Table) (k k2 s : List Nat)
    (hc : compactb tbl = true) (hs : (nvs_set_string tbl k s).1 = true)
    (hk2 : strlen k2 < KEY_MAX_LEN)
    (hdiff : k2.takeWhile (fun b => b != 0) ≠ k.takeWhile (fun b => b != 0)) :
    find_entry k2 (nvs_set_string tbl k s).2 = find_entry k2 tbl := by
  unfold nvs_set_string at hs ⊢
  by_cases hk : strlen k ≥ KEY_MAX_LEN
  · simp [hk] at hs
  · simp only [hk, if_false] at hs ⊢
    have hk' : strlen k < KEY_MAX_LEN := by omega
    rcases set_string_loop_shape k s tbl hs with
      ⟨pre, post, h1, h2, h3⟩ | ⟨pre, e, post, h1, _, h3, _, _, h6⟩
    · rw [h3, h1]
      apply find_entry_replace
      rw [h1] at hc
      have hpost := compactb_split pre post (occupied_of_no_match k pre h2) hc
      have hnm : strncmp_zero (new_string_entry k s).data.key k2 KEY_MAX_LEN = false :=
        match_other_key _ k k2 hk' hk2 hdiff (new_key_match k hk')
      simp only [find_entry, hnm, Bool.false_eq_true, if_false]
      exact find_entry_all_none k2 post hpost
    · rw [h6, h1]
      apply find_entry_replace
      have hnm : strncmp_zero e.data.key k2 KEY_MAX_LEN = false :=
        match_other_key _ k k2 hk' hk2 hdiff h3
      have hnm2 : strncmp_zero (updated_string e s).data.key k2 KEY_MAX_LEN = false := hnm
      simp only [find_entry, hnm, hnm2, Bool.false_eq_true, if_false]

theorem gets_of_find_eq (t1 t2 : Table) (k2 buf : List Nat) (cap : Nat)
    (h : strlen k2 < KEY_MAX_LEN → find_entry k2 t1 = find_entry k2 t2) :
    nvs_get_uint32 t1 k2 = nvs_get_uint32 t2 k2
      ∧ nvs_get_string t1 k2 buf cap = nvs_get_string t2 k2 buf cap := by
  unfold nvs_get_uint32 nvs_get_string
  by_cases hk : strlen k2 ≥ KEY_MAX_LEN
  · simp [hk]
  · simp only [hk, if_false]
    rw [get_uint32_loop_of_find, get_uint32_loop_of_find, get_string_loop_of_find,
      get_string_loop_of_find, h (by omega)]
    exact ⟨rfl, rfl⟩

/-- C16. Frame of a successful set: when `nvs_set_uint32 k v` returns true the
table changes in one slot only: either the scan found an entry for `k`, of
kind `TYPE_UINT32` and not deleted, and that entry has its value and
`modified` written, in the same slot, with key, kind and `deleted` as before; or
the scan went over occupied slots without a match and the new record (key `k`,
kind `TYPE_UINT32`, the value, `deleted` false, `modified` true) stands in the
first empty slot; every other slot is as before, and on a compact table
`nvs_get_uint32` and `nvs_get_string` return for every other key what they
returned before.  The same holds of `nvs_set_string k s`. -/
theorem C16_set_frame (tbl : Table) (k s : List Nat) (v : Nat) :
    ((nvs_set_uint32 tbl k v).1 = true →
        ((∃ pre post, tbl = pre ++ none :: post
            ∧ (∀ x ∈ pre, ∃ e1, x = some e1 ∧ strncmp_zero e1.data.key k KEY_MAX_LEN = false)
            ∧ (nvs_set_uint32 tbl k v).2 = pre ++ some (new_uint32_entry k v) :: post)
          ∨ (∃ pre e post, tbl = pre ++ some e :: post
            ∧ (∀ x ∈ pre, ∃ e1, x = some e1 ∧ strncmp_zero e1.data.key k KEY_MAX_LEN = false)
            ∧ strncmp_zero e.data.key k KEY_MAX_LEN = true
            ∧ e.deleted = false ∧ e.data.type = TYPE_UINT32
            ∧ (nvs_set_uint32 tbl k v).2 = pre ++ some (updated_uint32 e v) :: post))
        ∧ (compact tbl → ∀ k2 buf cap,
            k2.takeWhile (fun b => b != 0) ≠ k.takeWhile (fun b => b != 0) →
            nvs_get_uint32 (nvs_set_uint32 tbl k v).2 k2 = nvs_get_uint32 tbl k2
              ∧ nvs_get_string (nvs_set_uint32 tbl k v).2 k2 buf cap
                  = nvs_get_string tbl k2 buf cap))
      ∧ ((nvs_set_string tbl k s).1 = true →
        ((∃ pre post, tbl = pre ++ none :: post
            ∧ (∀ x ∈ pre, ∃ e1, x = some e1 ∧ strncmp_zero e1.data.key k KEY_MAX_LEN = false)
            ∧ (nvs_set_string tbl k s).2 = pre ++ some (new_string_entry k s) :: post)
          ∨ (∃ pre e post, tbl = pre ++ some e :: post
            ∧ (∀ x ∈ pre, ∃ e1, x = some e1 ∧ strncmp_zero e1.data.key k KEY_MAX_LEN = false)
            ∧ strncmp_zero e.data.key k KEY_MAX_LEN = true
            ∧ e.deleted = false ∧ e.data.type = TYPE_STRING
            ∧ (nvs_set_string tbl k s).2 = pre ++ some (updated_string e s) :: post))
        ∧ (compact tbl → ∀ k2 buf cap,
            k2.takeWhile (fun b => b != 0) ≠ k.takeWhile (fun b => b != 0) →
            nvs_get_uint32 (nvs_set_string tbl k s).2 k2 = nvs_get_uint32 tbl k2
              ∧ nvs_get_string (nvs_set_string tbl k s).2 k2 buf cap
                  = nvs_get_string tbl k2 buf cap)) := by
  constructor
  · intro hs
    constructor
    · have hk : ¬ strlen k ≥ KEY_MAX_LEN := by
        intro hk
        simp [nvs_set_uint32, hk] at hs
      simp only [nvs_set_uint32, hk, if_false] at hs ⊢
      exact set_uint32_loop_shape k v tbl hs
    · intro hc k2 buf cap hdiff
      exact gets_of_find_eq _ _ k2 buf cap (fun hk2 =>
        set_uint32_find_other tbl k k2 v ((compact_iff tbl).2 hc) hs hk2 hdiff)
  · intro hs
    constructor
    · have hk : ¬ strlen k ≥ KEY_MAX_LEN := by
        intro hk
        simp [nvs_set_string, hk] at hs
      simp only [nvs_set_string, hk, if_false] at hs ⊢
      exact set_string_loop_shape k s tbl hs
    · intro hc k2 buf cap hdiff
      exact gets_of_find_eq _ _ k2 buf cap (fun hk2 =>
        set_string_find_other tbl k k2 s ((compact_iff tbl).2 hc) hs hk2 hdiff)

/-- C16 on the table of `main.c`: "sample_rate" set to 48000 leaves what the
getters return for "name"; "baud_rate" set to "Paul-M" as a new string does so
too. -/
theorem C16_set_frame_witness :
    ((nvs_set_uint32 demo_table key_sample_rate 48000).1 = true
        ∧ (nvs_set_string demo_table key_baud_rate val_paul).1 = true
        ∧ compact demo_table
        ∧ key_name.takeWhile (fun b => b != 0) ≠ key_sample_rate.takeWhile (fun b => b != 0)
        ∧ key_name.takeWhile (fun b => b != 0) ≠ key_baud_rate.takeWhile (fun b => b != 0))
      ∧ nvs_get_string (nvs_set_uint32 demo_table key_sample_rate 48000).2 key_name
          (List.replicate 64 0) 64 = nvs_get_string demo_table key_name (List.replicate 64 0) 64
      ∧ nvs_get_string (nvs_set_string demo_table key_baud_rate val_paul).2 key_name
          (List.replicate 64 0) 64 = nvs_get_string demo_table key_name (List.replicate 64 0) 64 :=
  have h := C16_set_frame demo_table key_sample_rate val_paul 48000
  have h2 := C16_set_frame demo_table key_baud_rate val_paul 7
  ⟨⟨by decide, by decide, (compact_iff demo_table).1 (by decide), by decide, by decide⟩,
    ((h.1 (by decide)).2 ((compact_iff demo_table).1 (by decide)) key_name
      (List.replicate 64 0) 64 (by decide)).2,
    ((h2.2 (by decide)).2 ((compact_iff demo_table).1 (by decide)) key_name
      (List.replicate 64 0) 64 (by decide)).2⟩

/-! # Commit and reload -/

theorem crc_valid_with_crc (e : NVS_Entry) : crc_valid (with_crc e) = true := by
  simp [crc_valid, with_crc, entry_crc]

theorem live_records_valid (tbl : Table) : ∀ r ∈ live_records tbl, crc_valid r = true := by
  induction tbl with
  | nil => simp [live_records]
  | cons slot rest ih =>
    cases slot with
    | none => simp [live_records]
    | some e =>
      simp only [live_records]
      split
      · exact ih
      · intro r hr
        rcases List.mem_cons.1 hr with h | h
        · rw [h]
          exact crc_valid_with_crc e
        · exact ih r h

theorem live_records_length_le (tbl : Table) : (live_records tbl).length ≤ tbl.length := by
  induction tbl with
  | nil => simp [live_records]
  | cons slot rest ih =>
    cases slot with
    | none => simp [live_records]
    | some e =>
      simp only [live_records]
      split
      · simp only [List.length_cons]
        omega
      · simp only [List.length_cons]
        omega

theorem pages_calloc_filter_aux (l : List NVS_Entry) :
    (pages calloc_entry true l).filter crc_valid = l.filter crc_valid
      ∧ ∀ a, (pages calloc_entry true (a :: l)).filter crc_valid = (a :: l).filter crc_valid := by
  induction l with
  | nil =>
    refine ⟨rfl, fun a => ?_⟩
    simp [pages, List.filter_cons, calloc_entry_crc_invalid]
  | cons b rest ih =>
    refine ⟨ih.2 b, fun a => ?_⟩
    simp only [pages, List.filter_cons, ih.1]

/-- Among the records of the pages, those with a right checksum are the records
to write, unless a single record shares its page with a filler that has a right
checksum. -/
theorem pages_filter (filler : NVS_Entry) (l : List NVS_Entry)
    (h : l.length ≠ 1 ∨ crc_valid filler = false) :
    (pages filler true l).filter crc_valid = l.filter crc_valid := by
  cases l with
  | nil => rfl
  | cons a rest =>
    cases rest with
    | nil =>
      rcases h with h | h
      · simp at h
      · simp [pages, List.filter_cons, h]
    | cons b rest2 =>
      simp only [pages, List.filter_cons, (pages_calloc_filter_aux rest2).1]

/-- What holds of commit and reload: for a table of 100 slots with an empty
slot, whose records that are not deleted have a known kind, when every write
succeeds and unless a single record shares its page with a stale buffer slot
that passes the checksum test, `nvs_init(false)` on the file of `nvs_commit`
gives exactly the records that were not deleted, in order. -/
theorem commit_init_reload (tbl : Table) (buf : NVS_Entry × NVS_Entry)
    (fwrite_ok : Nat → Bool) (old_file : List NVS_Entry) (malloc : Nat → NVS_Entry)
    (hlen : tbl.length = MAX_NVS_RAM) (hgap : none ∈ tbl) (hok : ∀ p, fwrite_ok p = true)
    (hkind : ∀ r ∈ live_records tbl, r.data.type = TYPE_UINT32 ∨ r.data.type = TYPE_STRING)
    (hfill : (live_records tbl).length ≠ 1 ∨ crc_valid buf.2 = false) :
    ∃ es : List NVS_Entry,
      nvs_init false malloc (some (nvs_commit tbl buf true fwrite_ok old_file).2.1)
          = some (true, es.map some ++ List.replicate (MAX_NVS_RAM - es.length) none)
        ∧ List.Forall₂ loaded_from es (live_records tbl) := by
  have hfile := commit_table_with_gap fwrite_ok hok tbl hgap buf old_file
  have hfilter : (nvs_commit tbl buf true fwrite_ok old_file).2.1.filter crc_valid
      = live_records tbl := by
    rw [hfile, pages_filter _ _ hfill]
    exact List.filter_eq_self.2 (live_records_valid tbl)
  have hcap : ([] : Table).length
      + ((nvs_commit tbl buf true fwrite_ok old_file).2.1.filter crc_valid).length
        ≤ MAX_NVS_RAM := by
    rw [hfilter]
    have := live_records_length_le tbl
    simp only [List.length_nil]
    omega
  have hk : ∀ r ∈ (nvs_commit tbl buf true fwrite_ok old_file).2.1, crc_valid r = true →
      r.data.type = TYPE_UINT32 ∨ r.data.type = TYPE_STRING := by
    intro r hr hv
    apply hkind
    rw [← hfilter]
    exact List.mem_filter.2 ⟨hr, hv⟩
  obtain ⟨es, h1, h2⟩ := init_loop_known malloc _ 0 [] hk hcap
  rw [hfilter] at h2
  refine ⟨es, ?_, forall₂_loaded es _ h2⟩
  simp only [List.length_nil, List.nil_append, Nat.sub_zero, Nat.zero_add] at h1
  simp only [nvs_init, empty_table, h1, Option.map_some']

set_option maxRecDepth 100000 in
/-- C17 fails when the final page is the first page: `one_key_table` is compact
and holds one record that is not deleted; `nvs_commit`, entered with
`stale_buffer` and with every write succeeding, writes one page made of that
record and of the stale second slot of the buffer; `nvs_init(false)` then
leaves two records, the second being the stale one, "sample_rate" = 44100,
which was not in the table. -/
theorem C17_phantom_record :
    compact one_key_table
      ∧ (live_records one_key_table).length = 1
      ∧ find_entry key_sample_rate one_key_table = none
      ∧ (nvs_commit one_key_table stale_buffer true (fun _ => true) []).1 = true
      ∧ (nvs_commit one_key_table stale_buffer true (fun _ => true) []).2.1
          = [with_crc (new_uint32_entry key_baud_rate 115200), stale_buffer.2]
      ∧ (nvs_init false (fun _ => calloc_entry)
            (some (nvs_commit one_key_table stale_buffer true (fun _ => true) []).2.1)).map
          (fun r => (r.1, num_records r.2, nvs_get_uint32 r.2 key_sample_rate))
          = some (true, 2, some 44100) := by
  refine ⟨(compact_iff _).1 (by decide), by decide, by decide, by decide, by decide, by decide⟩

/-! # The capacity of the table at load -/

/-- When the records with a right checksum and a known kind outnumber the slots
that are left, the loop of `nvs_init` stores past the end of `nvs_entries`. -/
theorem init_loop_overflow (malloc : Nat → NVS_Entry) (file : List NVS_Entry) :
    ∀ (n : Nat) (tbl : Table) (idx : Nat),
      (∀ r ∈ file, crc_valid r = true →
        r.data.type = TYPE_UINT32 ∨ r.data.type = TYPE_STRING) →
      idx ≤ MAX_NVS_RAM → idx + (file.filter crc_valid).length > MAX_NVS_RAM →
      nvs_init_loop false malloc file n tbl idx = none := by
  induction file with
  | nil =>
    intro n tbl idx _ h1 h2
    simp only [List.filter_nil, List.length_nil] at h2
    omega
  | cons r file ih =>
    intro n tbl idx hk h1 h2
    have hk' : ∀ r1 ∈ file, crc_valid r1 = true →
        r1.data.type = TYPE_UINT32 ∨ r1.data.type = TYPE_STRING :=
      fun r1 hr1 => hk r1 (List.mem_cons_of_mem _ hr1)
    by_cases hv : crc_valid r = true
    · have hv' : entry_crc r = r.crc32 := by simpa [crc_valid] using hv
      have hkr := hk r (List.mem_cons_self _ _) hv
      simp only [List.filter_cons, hv, if_true, List.length_cons] at h2
      by_cases hidx : idx ≥ MAX_NVS_RAM
      · simp [nvs_init_loop, hv', hidx]
      · simp only [nvs_init_loop, hv', bne_self_eq_false, Bool.false_eq_true, if_false, hidx,
          hkr, if_true]
        exact ih (n + 1) _ (idx + 1) hk' (by omega) (by omega)
    · have hv' : ¬ entry_crc r = r.crc32 := by simpa [crc_valid] using hv
      simp only [List.filter_cons, hv, Bool.false_eq_true, if_false] at h2
      simp only [nvs_init_loop, Bool.false_eq_true, if_false, bne_iff_ne, ne_eq, hv',
        not_false_eq_true, if_true]
      exact ih (n + 1) tbl idx hk' h1 h2

set_option maxRecDepth 100000 in
/-- C18 fails on a file of 101 records that all have a right checksum and the
kind `TYPE_UINT32`: after it has filled the 100 slots `nvs_init(false)` stores
the entry of the last record at `nvs_entries[100]`, outside the table. -/
theorem C18_init_stores_past_table :
    overflow_file.length = 101
      ∧ (∀ r ∈ overflow_file, crc_valid r = true ∧ r.data.type = TYPE_UINT32)
      ∧ nvs_init false (fun _ => calloc_entry) (some overflow_file) = none := by
  have hv : crc_valid (with_crc (new_uint32_entry key_name 1)) = true := crc_valid_with_crc _
  have hall : ∀ r ∈ overflow_file, crc_valid r = true ∧ r.data.type = TYPE_UINT32 := by
    intro r hr
    have := List.eq_of_mem_replicate hr
    rw [this]
    exact ⟨hv, rfl⟩
  refine ⟨by simp [overflow_file], hall, ?_⟩
  have hfilter : overflow_file.filter crc_valid = overflow_file :=
    List.filter_eq_self.2 (fun r hr => (hall r hr).1)
  have := init_loop_overflow (fun _ => calloc_entry) overflow_file 0 empty_table 0
    (fun r hr _ => Or.inl (hall r hr).2) (by decide)
    (by rw [hfilter]; simp [overflow_file, MAX_NVS_RAM])
  simp [nvs_init, this]

/-! # The result of commit -/

/-- When every write succeeds and the table has an empty slot, `nvs_commit`
returns true iff there is a record to write. -/
theorem commit_result_with_gap (fwrite_ok : Nat → Bool) (hok : ∀ p, fwrite_ok p = true)
    (tbl : Table) (hgap : none ∈ tbl) (buf : NVS_Entry × NVS_Entry)
    (old_file : List NVS_Entry) :
    (nvs_commit tbl buf true fwrite_ok old_file).1 = !(live_records tbl).isEmpty := by
  have h := (commit_loop_pages fwrite_ok hok tbl buf 0 false [] (Or.inl rfl)).2
  have hany : tbl.any Option.isNone = true := by
    rw [List.any_eq_true]
    exact ⟨none, hgap, rfl⟩
  rw [hany] at h
  simp only [if_true, List.nil_append, Bool.false_or] at h
  simp only [nvs_commit, if_true]
  rw [h]
  cases hl : live_records tbl with
  | nil => rfl
  | cons a rest =>
    cases rest with
    | nil => rfl
    | cons b rest2 => rfl

/-- C19 fails on a table without a record to write: on the empty table and on
the table whose single record is deleted, both compact, with the file opened and
no write failing, `nvs_commit` leaves an empty file in place of the old one and
returns false, the value `commited` was initialised with. -/
theorem C19_commit_nothing_to_write :
    compact empty_table ∧ compact tombstone_table
      ∧ live_records empty_table = [] ∧ live_records tombstone_table = []
      ∧ nvs_commit empty_table (calloc_entry, calloc_entry) true (fun _ => true) demo_file
          = (false, [], empty_table)
      ∧ nvs_commit tombstone_table (calloc_entry, calloc_entry) true (fun _ => true) demo_file
          = (false, [], tombstone_table) := by
  refine ⟨(compact_iff _).1 (by decide), (compact_iff _).1 (by decide), by decide, by decide,
    by decide, by decide⟩

/-! # Detection of an altered byte -/

theorem shiftRight_one_xor (x y : Nat) : (x ^^^ y) >>> 1 = (x >>> 1) ^^^ (y >>> 1) := by
  apply Nat.eq_of_testBit_eq
  intro i
  simp

theorem xor_swap_right (a b p : Nat) : (a ^^^ b) ^^^ p = (a ^^^ p) ^^^ b := by
  rw [Nat.xor_assoc, Nat.xor_comm b p, ← Nat.xor_assoc]

theorem xor_cancel_both (a b p : Nat) : (a ^^^ p) ^^^ (b ^^^ p) = a ^^^ b := by
  rw [Nat.xor_assoc, Nat.xor_comm b p, ← Nat.xor_assoc p p b, Nat.xor_self, Nat.zero_xor]

/-- The step of the checksum is linear for the xor. -/
theorem crc_step_xor (x y : Nat) : crc_step (x ^^^ y) = crc_step x ^^^ crc_step y := by
  rw [crc_step_eq_spec, crc_step_eq_spec, crc_step_eq_spec]
  unfold crc32_spec_bit
  rw [shiftRight_one_xor, Nat.xor_mod_two_eq]
  rcases Nat.mod_two_eq_zero_or_one x with hx | hx <;>
    rcases Nat.mod_two_eq_zero_or_one y with hy | hy
  · have h : (x + y) % 2 = 0 := by omega
    simp [hx, hy, h]
  · have h : (x + y) % 2 = 1 := by omega
    simp only [hx, hy, h, if_true]
    simp [Nat.xor_assoc]
  · have h : (x + y) % 2 = 1 := by omega
    simp only [hx, hy, h, if_true]
    simp only [Nat.zero_ne_one, if_false]
    exact xor_swap_right _ _ _
  · have h : (x + y) % 2 = 0 := by omega
    simp only [hx, hy, h, if_true]
    simp only [Nat.zero_ne_one, if_false]
    exact (xor_cancel_both _ _ _).symm

/-- On 32 bits the step of the checksum sends only 0 to 0. -/
theorem crc_step_eq_zero (x : Nat) (hx : x < 2 ^ 32) (h : crc_step x = 0) : x = 0 := by
  rw [crc_step_eq_spec] at h
  unfold crc32_spec_bit at h
  rw [Nat.shiftRight_eq_div_pow] at h
  split at h
  · rw [Nat.xor_eq_zero] at h
    omega
  · omega

theorem crc_step_inj (x y : Nat) (hx : x < 2 ^ 32) (hy : y < 2 ^ 32)
    (h : crc_step x = crc_step y) : x = y := by
  have h1 : crc_step (x ^^^ y) = 0 := by
    rw [crc_step_xor, h, Nat.xor_self]
  exact Nat.xor_eq_zero.1 (crc_step_eq_zero _ (Nat.xor_lt_two_pow hx hy) h1)

theorem iterate_crc_step_inj (n x y : Nat) (hx : x < 2 ^ 32) (hy : y < 2 ^ 32)
    (h : Nat.iterate crc_step n x = Nat.iterate crc_step n y) : x = y := by
  induction n generalizing x y with
  | zero => exact h
  | succ m ih =>
    exact crc_step_inj x y hx hy (ih _ _ (crc_step_lt x hx) (crc_step_lt y hy) h)

theorem byte_lt_two_pow (b : Nat) : b % 256 < 2 ^ 32 := by
  have : b % 256 < 256 := Nat.mod_lt _ (by decide)
  omega

theorem crc_byte_inj_state (s1 s2 b : Nat) (h1 : s1 < 2 ^ 32) (h2 : s2 < 2 ^ 32)
    (h : crc_byte s1 b = crc_byte s2 b) : s1 = s2 := by
  unfold crc_byte at h
  have := iterate_crc_step_inj 8 _ _ (Nat.xor_lt_two_pow h1 (byte_lt_two_pow b))
    (Nat.xor_lt_two_pow h2 (byte_lt_two_pow b)) h
  exact Nat.xor_left_inj.1 this

theorem crc_byte_inj_byte (s x y : Nat) (hs : s < 2 ^ 32)
    (h : crc_byte s x = crc_byte s y) : x % 256 = y % 256 := by
  unfold crc_byte at h
  have := iterate_crc_step_inj 8 _ _ (Nat.xor_lt_two_pow hs (byte_lt_two_pow x))
    (Nat.xor_lt_two_pow hs (byte_lt_two_pow y)) h
  exact Nat.xor_right_inj.1 this

theorem foldl_crc_byte_inj (post : List Nat) (s1 s2 : Nat) (h1 : s1 < 2 ^ 32)
    (h2 : s2 < 2 ^ 32) (h : post.foldl crc_byte s1 = post.foldl crc_byte s2) : s1 = s2 := by
  induction post generalizing s1 s2 with
  | nil => exact h
  | cons b rest ih =>
    simp only [List.foldl_cons] at h
    exact crc_byte_inj_state s1 s2 b h1 h2
      (ih _ _ (crc_byte_lt s1 b h1) (crc_byte_lt s2 b h2) h)

/-- Two sequences that differ in one byte have different checksums. -/
theorem crc32_one_byte (pre post : List Nat) (x y : Nat) (hx : x < 256) (hy : y < 256)
    (hxy : x ≠ y) :
    compute_crc32 (pre ++ x :: post) (pre ++ x :: post).length
      ≠ compute_crc32 (pre ++ y :: post) (pre ++ y :: post).length := by
  intro h
  unfold compute_crc32 at h
  rw [List.take_length, List.take_length] at h
  have h1 := Nat.xor_left_inj.1 h
  simp only [List.foldl_append, List.foldl_cons] at h1
  have hs : pre.foldl crc_byte 0xFFFFFFFF < 2 ^ 32 := foldl_crc_byte_lt pre _ (by decide)
  have h2 := foldl_crc_byte_inj post _ _ (crc_byte_lt _ x hs) (crc_byte_lt _ y hs) h1
  have h3 := crc_byte_inj_byte _ x y hs h2
  rw [Nat.mod_eq_of_lt hx, Nat.mod_eq_of_lt hy] at h3
  exact hxy h3

/-- C20. Single-byte corruption is always detected: two byte sequences of the
same length that differ in exactly one position (`pre ++ x :: post` and
`pre ++ y :: post` with `x ≠ y`) have different `compute_crc32`; hence a record
`r` of the file that carries the checksum `nvs_commit` wrote for an entry `e`,
and whose 100-byte payload differs from the payload of `e` in one byte, fails the
checksum test of `nvs_init(false)`, which goes on to the next record without
touching the table or `entry_idx`. -/
theorem C20_single_byte_detected (pre post : List Nat) (x y : Nat)
    (hx : x < 256) (hy : y < 256) (hxy : x ≠ y)
    (e r : NVS_Entry) (pre2 post2 : List Nat) (x2 y2 : Nat)
    (hx2 : x2 < 256) (hy2 : y2 < 256) (hxy2 : x2 ≠ y2)
    (he : data_bytes e.data = pre2 ++ x2 :: post2) (hr : data_bytes r.data = pre2 ++ y2 :: post2)
    (hsize : (data_bytes e.data).length = SIZEOF_DATA) (hcrc : r.crc32 = (with_crc e).crc32)
    (malloc : Nat → NVS_Entry) (file : List NVS_Entry) (n : Nat) (tbl : Table) (idx : Nat) :
    compute_crc32 (pre ++ x :: post) (pre ++ x :: post).length
        ≠ compute_crc32 (pre ++ y :: post) (pre ++ y :: post).length
      ∧ crc_valid r = false
      ∧ nvs_init_loop false malloc (r :: file) n tbl idx
          = nvs_init_loop false malloc file (n + 1) tbl idx := by
  have hne := crc32_one_byte pre2 post2 x2 y2 hx2 hy2 hxy2
  have hl1 : (pre2 ++ x2 :: post2).length = SIZEOF_DATA := by rw [← he]; exact hsize
  have hl2 : (pre2 ++ y2 :: post2).length = SIZEOF_DATA := by
    rw [← hl1]
    simp
  have hv : ¬ entry_crc r = r.crc32 := by
    intro h
    apply hne
    rw [hcrc] at h
    simp only [with_crc, entry_crc, he, hr] at h
    rw [hl1, hl2]
    exact h.symm
  refine ⟨crc32_one_byte pre post x y hx hy hxy, ?_, ?_⟩
  · simpa [crc_valid] using hv
  · simp only [nvs_init_loop, Bool.false_eq_true, if_false, bne_iff_ne, ne_eq, hv,
      not_false_eq_true, if_true]

set_option maxRecDepth 100000 in
/-- C20 on the sequences `[0]` and `[1]`, and on the record "name" = 1 whose
first value byte was changed from 1 to 3 in the file. -/
theorem C20_single_byte_detected_witness :
    ((0 : Nat) < 256 ∧ (1 : Nat) < 256 ∧ (0 : Nat) ≠ 1 ∧ (3 : Nat) < 256 ∧ (1 : Nat) ≠ 3
        ∧ data_bytes (new_uint32_entry key_name 1).data
            = (data_bytes (new_uint32_entry key_name 1).data).take 36
                ++ 1 :: List.replicate 63 0
        ∧ data_bytes altered_record.data
            = (data_bytes (new_uint32_entry key_name 1).data).take 36
                ++ 3 :: List.replicate 63 0
        ∧ (data_bytes (new_uint32_entry key_name 1).data).length = SIZEOF_DATA
        ∧ altered_record.crc32 = (with_crc (new_uint32_entry key_name 1)).crc32)
      ∧ compute_crc32 ([] ++ 0 :: []) ([] ++ 0 :: ([] : List Nat)).length
          ≠ compute_crc32 ([] ++ 1 :: []) ([] ++ 1 :: ([] : List Nat)).length
      ∧ crc_valid altered_record = false
      ∧ nvs_init_loop false (fun _ => calloc_entry) (altered_record :: demo_file) 0 empty_table 0
          = nvs_init_loop false (fun _ => calloc_entry) demo_file (0 + 1) empty_table 0 :=
  ⟨⟨by decide, by decide, by decide, by decide, by decide, by decide, by decide, by decide, rfl⟩,
    C20_single_byte_detected [] [] 0 1 (by decide) (by decide) (by decide)
      (new_uint32_entry key_name 1) altered_record
      ((data_bytes (new_uint32_entry key_name 1).data).take 36) (List.replicate 63 0) 1 3
      (by decide) (by decide) (by decide) (by decide) (by decide) (by decide) rfl
      (fun _ => calloc_entry) demo_file 0 empty_table 0⟩

/-! # Records of an unknown kind -/

set_option maxRecDepth 100000 in
/-- C21 fails when the last record with a right checksum has an unknown kind:
the file holds `unknown_kind_record` alone, whose checksum is right and whose
kind tag is 7, so no record of the file has a right checksum and a known kind;
`nvs_init(false)` returns true and leaves one occupied slot, slot 0, with an
entry of kind 7 under the key "name", which the scan of the other functions
finds. -/
theorem C21_unknown_kind_stays :
    [unknown_kind_record].length ≤ 100
      ∧ crc_valid unknown_kind_record = true
      ∧ unknown_kind_record.data.type = 7
      ∧ ([unknown_kind_record].filter valid_known).length = 0
      ∧ nvs_init false (fun _ => calloc_entry) (some [unknown_kind_record])
          = some (true, some (init_entry calloc_entry unknown_kind_record)
              :: List.replicate 99 none)
      ∧ num_records (some (init_entry calloc_entry unknown_kind_record)
          :: List.replicate 99 none) = 1
      ∧ (init_entry calloc_entry unknown_kind_record).data.type = 7
      ∧ find_entry key_name (some (init_entry calloc_entry unknown_kind_record)
          :: List.replicate 99 none) = some (init_entry calloc_entry unknown_kind_record) := by
  refine ⟨by decide, by decide, by decide, by decide, by decide, by decide, by decide,
    by decide⟩

theorem head_join_of_all_none (rest : Table) (h : ∀ s ∈ rest, s = none) :
    rest.head?.join = none := by
  cases rest with
  | nil => rfl
  | cons s tl =>
    have := h s (List.mem_cons_self _ _)
    subst this
    rfl

/-- The loop of `nvs_init(false)` on any file that is not longer than the slots
left: the records with a right checksum and a known kind are loaded in order,
and the slot after them holds `stale_entry`. -/
theorem init_loop_general (malloc : Nat → NVS_Entry) (file : List NVS_Entry) :
    ∀ (n : Nat) (pre tl : Table),
      pre.length + tl.length = MAX_NVS_RAM → file.length ≤ tl.length →
      (∀ s ∈ tl.tail, s = none) →
      ∃ (es : List NVS_Entry) (tl2 : Table),
        nvs_init_loop false malloc file n (pre ++ tl) pre.length
          = some (pre ++ es.map some ++ tl2)
        ∧ List.Forall₂ (fun e r => ∃ junk, e = init_entry junk r) es (file.filter valid_known)
        ∧ (∀ s ∈ tl2.tail, s = none)
        ∧ es.length + tl2.length = tl.length
        ∧ tl2.head?.join = stale_entry malloc file n tl.head?.join := by
  induction file with
  | nil =>
    intro n pre tl _ _ htl
    exact ⟨[], tl, by simp [nvs_init_loop], List.Forall₂.nil, htl, by simp, rfl⟩
  | cons r file ih =>
    intro n pre tl hlen hfile htl
    cases tl with
    | nil => simp at hfile
    | cons x rest =>
      simp only [List.length_cons] at hlen hfile
      simp only [List.tail_cons] at htl
      have hidx : ¬ pre.length ≥ MAX_NVS_RAM := by omega
      by_cases hv : crc_valid r = true
      · have hv' : entry_crc r = r.crc32 := by simpa [crc_valid] using hv
        by_cases hk : r.data.type = TYPE_UINT32 ∨ r.data.type = TYPE_STRING
        · have hvk : valid_known r = true := by
            rcases hk with h | h <;> simp [valid_known, hv, h]
          obtain ⟨es, tl2, h1, h2, h3, h4, h5⟩ :=
            ih (n + 1) (pre ++ [some (init_entry (malloc n) r)]) rest
              (by simp only [List.length_append, List.length_singleton]; omega) (by omega)
              (fun s hs => htl s (List.mem_of_mem_tail hs))
          refine ⟨init_entry (malloc n) r :: es, tl2, ?_, ?_, h3, ?_, ?_⟩
          · have hl : (pre ++ [some (init_entry (malloc n) r)]).length = pre.length + 1 := by
              simp
            rw [hl] at h1
            simp only [nvs_init_loop, hv', bne_self_eq_false, Bool.false_eq_true, if_false,
              hidx, hk, if_true, set_at_length]
            have happ : pre ++ some (init_entry (malloc n) r) :: rest
                = pre ++ [some (init_entry (malloc n) r)] ++ rest := by simp
            rw [happ, h1]
            simp
          · simp only [List.filter_cons, hvk, if_true]
            exact List.Forall₂.cons ⟨_, rfl⟩ h2
          · simp only [List.length_cons]
            omega
          · rw [h5, head_join_of_all_none rest htl]
            simp [stale_entry, hv, hk]
        · have hvk : valid_known r = false := by
            have h1 : ¬ r.data.type = TYPE_UINT32 := fun h => hk (Or.inl h)
            have h2 : ¬ r.data.type = TYPE_STRING := fun h => hk (Or.inr h)
            simp [valid_known, h1, h2]
          obtain ⟨es, tl2, h1, h2, h3, h4, h5⟩ :=
            ih (n + 1) pre (some (init_entry (malloc n) r) :: rest)
              (by simp only [List.length_cons]; omega)
              (by simp only [List.length_cons]; omega)
              (by simpa using htl)
          refine ⟨es, tl2, ?_, ?_, h3, ?_, ?_⟩
          · simp only [nvs_init_loop, hv', bne_self_eq_false, Bool.false_eq_true, if_false,
              hidx, hk, set_at_length]
            exact h1
          · simp only [List.filter_cons, hvk, Bool.false_eq_true, if_false]
            exact h2
          · simpa using h4
          · rw [h5]
            simp [stale_entry, hv, hk]
      · have hv' : ¬ entry_crc r = r.crc32 := by simpa [crc_valid] using hv
        have hvk : valid_known r = false := by
          have : crc_valid r = false := by simpa using hv
          simp [valid_known, this]
        obtain ⟨es, tl2, h1, h2, h3, h4, h5⟩ :=
          ih (n + 1) pre (x :: rest) (by simp only [List.length_cons]; omega)
            (by simp only [List.length_cons]; omega) (by simpa using htl)
        refine ⟨es, tl2, ?_, ?_, h3, ?_, ?_⟩
        · simp only [nvs_init_loop, Bool.false_eq_true, if_false, bne_iff_ne, ne_eq, hv',
            not_false_eq_true, if_true]
          exact h1
        · simp only [List.filter_cons, hvk, Bool.false_eq_true, if_false]
          exact h2
        · simpa using h4
        · rw [h5]
          simp [stale_entry, hv]

/-- What `nvs_init(false)` leaves for any file of at most 100 records: it returns
true; the records with a right checksum and a known kind stand from slot 0 on,
in file order; the next slot holds `stale_entry`; the slots after it are
empty. -/
theorem init_general (malloc : Nat → NVS_Entry) (file : List NVS_Entry)
    (hlen : file.length ≤ 100) :
    ∃ (es : List NVS_Entry) (tl2 : Table),
      nvs_init false malloc (some file) = some (true, es.map some ++ tl2)
        ∧ List.Forall₂ loaded_from es (file.filter valid_known)
        ∧ (∀ s ∈ tl2.tail, s = none)
        ∧ es.length + tl2.length = MAX_NVS_RAM
        ∧ tl2.head?.join = stale_entry malloc file 0 none := by
  have hnone : ∀ s ∈ empty_table.tail, s = none := by
    intro s hs
    have := List.mem_of_mem_tail hs
    exact List.eq_of_mem_replicate this
  obtain ⟨es, tl2, h1, h2, h3, h4, h5⟩ :=
    init_loop_general malloc file 0 [] empty_table (by simp [empty_table])
      (by simpa [empty_table, MAX_NVS_RAM] using hlen) hnone
  refine ⟨es, tl2, ?_, forall₂_loaded es _ h2, h3, ?_, ?_⟩
  · simp only [List.length_nil, List.nil_append] at h1
    simp only [nvs_init, h1, Option.map_some']
  · simpa [empty_table] using h4
  · rw [h5]
    rfl

theorem stale_entry_invalid (malloc : Nat → NVS_Entry) (f3 : List NVS_Entry)
    (h3 : ∀ r ∈ f3, crc_valid r = false) (n : Nat) (x : Option NVS_Entry) :
    stale_entry malloc f3 n x = x := by
  induction f3 generalizing n with
  | nil => rfl
  | cons r rest ih =>
    have hr := h3 r (List.mem_cons_self _ _)
    simp only [stale_entry, hr, Bool.false_eq_true, if_false]
    exact ih (fun r1 hr1 => h3 r1 (List.mem_cons_of_mem _ hr1)) (n + 1)

/-- When the last record with a right checksum has an unknown kind, the entry
built for it is what stays in the slot after the loaded records. -/
theorem stale_entry_last (malloc : Nat → NVS_Entry) (f1 f3 : List NVS_Entry) (u : NVS_Entry)
    (hu : crc_valid u = true)
    (hunk : ¬ (u.data.type = TYPE_UINT32 ∨ u.data.type = TYPE_STRING))
    (h3 : ∀ r ∈ f3, crc_valid r = false) (n : Nat) (x : Option NVS_Entry) :
    stale_entry malloc (f1 ++ u :: f3) n x = some (init_entry (malloc (n + f1.length)) u) := by
  induction f1 generalizing n x with
  | nil =>
    simp only [List.nil_append, stale_entry, hu, if_true, hunk, if_false, List.length_nil,
      Nat.add_zero]
    exact stale_entry_invalid malloc f3 h3 (n + 1) _
  | cons r rest ih =>
    have hn : n + (r :: rest).length = n + 1 + rest.length := by
      simp only [List.length_cons]
      omega
    rw [hn]
    simp only [List.cons_append, stale_entry]
    split
    · split
      · exact ih (n + 1) none
      · exact ih (n + 1) _
    · exact ih (n + 1) x

/-- The general form of the defect: in a file of at most 100 records whose last
record with a right checksum, `u`, has an unknown kind, the entry built for `u`
occupies the slot after the loaded records when `nvs_init(false)` returns. -/
theorem init_unknown_kind_last (malloc : Nat → NVS_Entry) (f1 f3 : List NVS_Entry)
    (u : NVS_Entry) (hlen : (f1 ++ u :: f3).length ≤ 100) (hu : crc_valid u = true)
    (hunk : ¬ (u.data.type = TYPE_UINT32 ∨ u.data.type = TYPE_STRING))
    (h3 : ∀ r ∈ f3, crc_valid r = false) :
    ∃ (es : List NVS_Entry) (rest : Table),
      nvs_init false malloc (some (f1 ++ u :: f3))
          = some (true, es.map some ++ some (init_entry (malloc f1.length) u) :: rest)
        ∧ List.Forall₂ loaded_from es ((f1 ++ u :: f3).filter valid_known)
        ∧ (∀ s ∈ rest, s = none) := by
  obtain ⟨es, tl2, h1, h2, h3', _, h5⟩ := init_general malloc (f1 ++ u :: f3) hlen
  rw [stale_entry_last malloc f1 f3 u hu hunk h3 0 none, Nat.zero_add] at h5
  cases tl2 with
  | nil => simp at h5
  | cons x rest =>
    cases x with
    | none => simp at h5
    | some e =>
      have he : e = init_entry (malloc f1.length) u := by simpa using h5
      subst he
      exact ⟨es, rest, h1, h2, by simpa using h3'⟩

end NVS
